import Mathlib

set_option maxHeartbeats 1000000

/-
Shallow embedding of the Triple Barrier labeling pipeline
(src/Machine Learning Approach/label.py, class TripleBarrier).

Timestamps and prices are rationals; one calendar day is one unit of time,
so `pd.Timedelta(days=1)` becomes `1`.  A pandas Series indexed by
timestamps is a list of (timestamp, value) pairs in index order; a missing
value (NaN) is `none` of an `Option`.  The exponentially weighted moving
standard deviation applied at the end of `get_daily_vol` (line 48) is
irrational-valued, so the pipeline below is parametrized by the volatility
target series it produces; the target enters the later stages only through
its values, and all theorems quantify over an arbitrary target series.
-/

namespace TripleBarrier

/-- A price series: (timestamp, price) pairs in index order. -/
abbrev Series := List (ℚ × ℚ)

/-- Embeds `index.searchsorted(v)` (side left) for a sorted index: the
number of index entries strictly below `v`, which is the first position
holding an entry `≥ v`. -/
def searchsorted (xs : List ℚ) (v : ℚ) : ℕ :=
  xs.countP fun u => decide (u < v)

/-- Embeds a scalar label lookup `close[t]` / `close[close.index == t].values[0]`:
the value of the first entry whose timestamp equals `t` (0 if absent; the
source only looks up timestamps present in the index). -/
def priceAt (ts : Series) (t : ℚ) : ℚ :=
  ((ts.find? fun p => decide (p.1 = t)).map Prod.snd).getD 0

/-- Embeds a lookup into `close.reindex(dates, method="bfill")` at `t` for a
sorted index: the value at the first timestamp `≥ t`. -/
def priceBfill (ts : Series) (t : ℚ) : ℚ :=
  ((ts.find? fun p => decide (t ≤ p.1)).map Prod.snd).getD 0

/-- Embeds `close.index[-1]`. -/
def lastTime (ts : Series) : ℚ :=
  (ts.map Prod.fst).getLastD 0

/-- Embeds a lookup in a timestamp-indexed mapping (e.g. the vertical
barrier Series), `none` when the key is absent. -/
def lookupTB (m : Series) (t : ℚ) : Option ℚ :=
  (m.find? fun p => decide (p.1 = t)).map Prod.snd

/-- Embeds `.min()` over a set of timestamps: the minimum of a list,
`none` (NaN) when empty. -/
def minTime : List ℚ → Option ℚ
  | [] => none
  | a :: l =>
    match minTime l with
    | none => some a
    | some b => some (min a b)

/-- Embeds `.max()` over a set of timestamps (used only to phrase the
spec's anchor choice). -/
def maxTime : List ℚ → Option ℚ
  | [] => none
  | a :: l =>
    match maxTime l with
    | none => some a
    | some b => some (max a b)

/-- Embeds `first_touch_dates.loc[ind, :].dropna().min()` (label.py line
115): minimum of whichever of the vertical barrier, profit-take time and
stop-loss time are defined. -/
def resolveT1 (t1v pt sl : Option ℚ) : Option ℚ :=
  minTime (t1v.toList ++ pt.toList ++ sl.toList)

/-- Embeds the label slice `close[loc:vertical_barrier]` (line 89), which
for a sorted index keeps the entries with `loc ≤ t ≤ vertical_barrier`,
both ends inclusive. -/
def tb_slice (close : Series) (lo hi : ℚ) : Series :=
  close.filter fun p => decide (lo ≤ p.1) && decide (p.1 ≤ hi)

/-- Embeds the body of `TripleBarrier.touch_barrier` (lines 66-95) for one
event: `factor = [pf, sf]`, event start `loc`, vertical barrier `t1v`
(`none` = NaN, filled with the last index timestamp for slicing, line 88),
volatility target `trgt` and directional `side`.  Returns the
(stop-loss time, profit-take time) pair, each `none` when the barrier is
inactive (`factor ≤ 0` makes the threshold Series all NaN, lines 79/84, so
the comparison never holds) or never crossed.  `cum_returns` is
`(closing_prices / close[loc] - 1) * side` (line 90); the stop-loss
threshold is `-factor[1] * trgt` (line 82) and the profit-take threshold
`factor[0] * trgt` (line 77). -/
def touch_barrier (close : Series) (pf sf : ℚ) (loc : ℚ) (t1v : Option ℚ)
    (trgt side : ℚ) : Option ℚ × Option ℚ :=
  let vb := t1v.getD (lastTime close)
  let p0 := priceAt close loc
  let s := tb_slice close loc vb
  let sl := if 0 < sf then
      minTime ((s.filter fun x => decide ((x.2 / p0 - 1) * side < -sf * trgt)).map Prod.fst)
    else none
  let pt := if 0 < pf then
      minTime ((s.filter fun x => decide (pf * trgt < (x.2 / p0 - 1) * side)).map Prod.fst)
    else none
  (sl, pt)

/-- The resolved first-touch time of one event as computed inside
`TripleBarrier.get_events` (lines 111-115): the vertical barrier for the
start is looked up, `touch_barrier` is applied with effective factors
`(pf, sf)`, and the event's `t1` is overwritten with the minimum of the
defined entries. -/
def first_touch_t1 (close : Series) (pf sf : ℚ) (vb : Series)
    (s trgt side : ℚ) : Option ℚ :=
  let t1v := lookupTB vb s
  let o := touch_barrier close pf sf s t1v trgt side
  resolveT1 t1v o.2 o.1

/-- One row of the events table assembled by `get_events`:
`t1` is the resolved first-touch time (line 115), `sideCol` the value of
the `side` column (`none` = NaN after `reindex`), and `pt`/`sl` the
recorded factor metadata (lines 118-119). -/
structure TBEvent where
  start : ℚ
  t1 : Option ℚ
  trgt : ℚ
  sideCol : Option ℚ
  pt : ℚ
  sl : ℚ
  deriving DecidableEq

/-- The events table: rows plus whether the `side` column is present
(it is dropped when no side prediction was supplied, line 117). -/
structure EventsTable where
  rows : List TBEvent
  hasSide : Bool
  deriving DecidableEq

/-- Embeds `TripleBarrier.get_events` (lines 97-120).  `target` is the
volatility series (its index is the event-start set after
`dropna(subset=["trgt"])`), `vertical_barrier` the vertical-barrier
mapping.  With `side_prediction = None` the side is the constant 1 and the
effective factor pair is `[factor[0], factor[0]]` (lines 101-103), and the
`side` column is dropped (line 117); otherwise the side is looked up in
the prediction (NaN when absent after `reindex`, in which case every
comparison against the NaN cumulative returns is false and no horizontal
touch is produced) and the effective pair is `factor[:2]` (line 106).
The recorded `pt`/`sl` metadata is `factor[0]`/`factor[1]` in both cases
(lines 118-119). -/
def get_events (close : Series) (f0 f1 : ℚ) (target : Series)
    (vertical_barrier : Series) (side_prediction : Option Series) : EventsTable :=
  match side_prediction with
  | none =>
    ⟨target.map fun st =>
      ⟨st.1, first_touch_t1 close f0 f0 vertical_barrier st.1 st.2 1,
        st.2, none, f0, f1⟩, false⟩
  | some sp =>
    ⟨target.map fun st =>
      let sd := lookupTB sp st.1
      let t1r := match sd with
        | some sdv => first_touch_t1 close f0 f1 vertical_barrier st.1 st.2 sdv
        | none => resolveT1 (lookupTB vertical_barrier st.1) none none
      ⟨st.1, t1r, st.2, sd, f0, f1⟩, true⟩

/-- The label mode: `label=0` is classification, `label=1` regression
(label.py line 12). -/
inductive LabelMode
  | classification
  | regression
  deriving DecidableEq

/-- Embeds Python's `max([a, b], key=abs)` (lines 152-159): the first of
the two values whose absolute value is maximal. -/
def maxByAbs (a b : ℚ) : ℚ :=
  if |a| < |b| then b else a

/-- The definedness of the source's numpy float division at rational
operands: a float quotient is a real number except when the denominator is
0 (`0.0 / 0.0` is NaN, `x / 0.0` is an infinity), so `none` marks a
quotient that is no rational number.  Used to state where the regression
ratio of `barrier_touched` (lines 155-157) leaves the rationals. -/
def float_div? (a b : ℚ) : Option ℚ :=
  if b = 0 then none else some (a / b)

/-- Embeds the per-row body of `TripleBarrier.barrier_touched`
(lines 129-160).  `ret` is the row's `ret` value, which at this point
holds the (backfilled) price at the touch time (line 173); the barriers
are `initial_price ± initial_price * factor * target` (lines 133-137).
Caveat: rational division is total (`x / 0 = 0`), while the source's
float division in the regression branch yields NaN when a barrier
distance is 0 (reachable with a zero volatility target, where the
vertical outcome forces a 0/0); `float_div?` makes that divergence
explicit, and theorems about the regression branch must carry a
non-zero-distance hypothesis rather than rely on `0 / 0 = 0`. -/
def barrier_touched_bin (m : LabelMode) (ret trgt initial_price pt sl : ℚ) : ℚ :=
  let top_barrier := initial_price + initial_price * pt * trgt
  let btm_barrier := initial_price - initial_price * sl * trgt
  if top_barrier < ret then 1
  else if ret < btm_barrier then -1
  else match m with
    | .classification => 0
    | .regression =>
      maxByAbs ((ret - initial_price) / (top_barrier - initial_price))
        ((ret - initial_price) / (initial_price - btm_barrier))

/-- One row of the output label table (columns of `out_df`,
lines 172-181). -/
structure TBLabel where
  start : ℚ
  ret : ℚ
  trgt : ℚ
  bin : ℚ
  sideVal : Option ℚ
  deriving DecidableEq

/-- The label table plus whether a `side` column is present
(line 180-181). -/
structure LabelsTable where
  rows : List TBLabel
  hasSide : Bool
  deriving DecidableEq

/-- One output row of `TripleBarrier.get_labels` for an event with defined
`t1`: `ret` is the final realized return
`prices.loc[t1] / prices.loc[start] - 1` over the backfill-reindexed
prices (lines 176-178), `bin` comes from `barrier_touched` evaluated at
the price at the touch time (lines 173, 175), and `side` is carried only
when the events table kept its side column (lines 179-181). -/
def label_row (m : LabelMode) (close : Series) (hasSide : Bool) (e : TBEvent) : TBLabel :=
  let t1 := e.t1.getD 0
  let touch_price := priceBfill close t1
  let initial_price := priceAt close e.start
  ⟨e.start, touch_price / priceBfill close e.start - 1, e.trgt,
    barrier_touched_bin m touch_price e.trgt initial_price e.pt e.sl,
    if hasSide then e.sideCol else none⟩

/-- Embeds `TripleBarrier.get_labels` (lines 164-182): events with NaN
`t1` are dropped (line 169) and each remaining event produces one label
row. -/
def get_labels (m : LabelMode) (ev : EventsTable) (close : Series) : LabelsTable :=
  ⟨(ev.rows.filter fun e => e.t1.isSome).map (label_row m close ev.hasSide), ev.hasSide⟩

/-- Embeds the return-series stage of `TripleBarrier.get_daily_vol`
(lines 38-46): for each timestamp, `searchsorted` locates `t - 1 day`;
positions `> 0` are kept; the anchors `index[pos - 1]` are aligned with
the last `k` timestamps of the index (line 43), and the value is
`price(t) / price(anchor) - 1` (line 46).  The subsequent
`ewm(span).std()` (line 48) maps this series through an exponentially
weighted standard deviation without changing its index. -/
def get_daily_vol_returns (prices : Series) : List (ℚ × ℚ) :=
  let times := prices.map Prod.fst
  let pos := times.map fun t => searchsorted times (t - 1)
  let kept := pos.filter fun i => decide (0 < i)
  let outTimes := times.drop (times.length - kept.length)
  List.zipWith (fun t i => (t, priceAt prices t / priceAt prices (times.getD (i - 1) 0) - 1))
    outTimes kept

/-- Embeds `TripleBarrier.add_vertical_barrier` (lines 51-64): for each
timestamp, `searchsorted` locates the first index position at or after
`t + num_days`; positions beyond the end are discarded and the surviving
barrier timestamps are aligned with the first `k` index entries
(lines 62-63). -/
def add_vertical_barrier (times : List ℚ) (num_days : ℚ) : List (ℚ × ℚ) :=
  let nearest := times.map fun t => searchsorted times (t + num_days)
  let kept := nearest.filter fun i => decide (i < times.length)
  List.zipWith (fun t i => (t, times.getD i 0)) (times.take kept.length) kept

/-- The pipeline run by `TripleBarrier.__init__` (lines 5-27) downstream
of the volatility estimate: vertical barriers from the close index, events
with no side prediction, then labels.  `target` stands for the
`get_daily_vol` output (see the file header). -/
def triple_barrier_pipeline (close : Series) (target : Series)
    (barrier_horizon f0 f1 : ℚ) (m : LabelMode) : LabelsTable :=
  get_labels m
    (get_events close f0 f1 target
      (add_vertical_barrier (close.map Prod.fst) barrier_horizon) none)
    close

/-- Following the spec's words (§4.3 step 5): `ptTime` is the earliest `t`
in the slice where `r(t) > profitTake` with `profitTake = profitFactor *
target(s)`, undefined if `profitFactor = 0` or no such `t`. -/
def spec_pt_time (close : Series) (pf : ℚ) (s vbE trgt side : ℚ) : Option ℚ :=
  if pf = 0 then none
  else minTime (((tb_slice close s vbE).filter fun x =>
    decide (pf * trgt < (x.2 / priceAt close s - 1) * side)).map Prod.fst)

/-- Following the spec's words (§4.3 step 4): `slTime` is the earliest `t`
in the slice where `r(t) < stopLoss` with `stopLoss = -stopFactor *
target(s)`, undefined if `stopFactor = 0` or no such `t`. -/
def spec_sl_time (close : Series) (sf : ℚ) (s vbE trgt side : ℚ) : Option ℚ :=
  if sf = 0 then none
  else minTime (((tb_slice close s vbE).filter fun x =>
    decide ((x.2 / priceAt close s - 1) * side < -sf * trgt)).map Prod.fst)

/-- Following the spec's words (§4.3): the resolved touch time is the
minimum of whichever of `slTime`, `ptTime` and the vertical barrier are
defined, the vertical barrier defaulting to the series' last timestamp for
the slice when undefined. -/
def spec_first_touch_t1 (close : Series) (pf sf : ℚ) (vb : Series)
    (s trgt side : ℚ) : Option ℚ :=
  let t1v := lookupTB vb s
  let vbE := t1v.getD (lastTime close)
  resolveT1 t1v (spec_pt_time close pf s vbE trgt side)
    (spec_sl_time close sf s vbE trgt side)

/-- Following the spec's words (§4.1): the anchor for `t` is the latest
timestamp that is `≤ t` minus one calendar day. -/
def spec_anchor (times : List ℚ) (t : ℚ) : Option ℚ :=
  maxTime (times.filter fun u => decide (u ≤ t - 1))

/-! ### Helper lemmas -/

theorem searchsorted_le_length (xs : List ℚ) (v : ℚ) :
    searchsorted xs v ≤ xs.length :=
  List.countP_le_length _

theorem searchsorted_lt_length_iff (xs : List ℚ) (v : ℚ) :
    searchsorted xs v < xs.length ↔ ∃ u ∈ xs, v ≤ u := by
  constructor
  · intro h
    by_contra hc
    push_neg at hc
    have heq : searchsorted xs v = xs.length := by
      simp only [searchsorted, List.countP_eq_length, decide_eq_true_eq]
      exact hc
    omega
  · rintro ⟨u, hu, hge⟩
    rcases lt_or_eq_of_le (searchsorted_le_length xs v) with h | h
    · exact h
    · simp only [searchsorted, List.countP_eq_length, decide_eq_true_eq] at h
      exact absurd hge (not_le_of_lt (h u hu))

theorem searchsorted_pos_iff (xs : List ℚ) (v : ℚ) :
    0 < searchsorted xs v ↔ ∃ u ∈ xs, u < v := by
  simp [searchsorted, List.countP_pos_iff]

theorem getElem_lt_of_lt_searchsorted {xs : List ℚ} {v : ℚ}
    (hs : xs.Pairwise (· < ·)) {i : ℕ} (hi : i < xs.length)
    (h : i < searchsorted xs v) : xs[i] < v := by
  induction xs generalizing i with
  | nil => simp at hi
  | cons x l ih =>
    rcases List.pairwise_cons.mp hs with ⟨hx, hl⟩
    by_cases hxv : x < v
    · cases i with
      | zero => simpa using hxv
      | succ j =>
        have hcons : searchsorted (x :: l) v = searchsorted l v + 1 := by
          simp [searchsorted, List.countP_cons, hxv]
        rw [hcons] at h
        have hj : j < l.length := by simpa using hi
        simpa using ih hl hj (by omega)
    · have h0 : searchsorted (x :: l) v = 0 := by
        simp only [searchsorted, List.countP_eq_zero, decide_eq_true_eq]
        intro a ha
        rcases List.mem_cons.mp ha with rfl | hal
        · exact hxv
        · exact fun hav => hxv (lt_trans (hx a hal) hav)
      omega

theorem le_getElem_of_searchsorted_le {xs : List ℚ} {v : ℚ}
    (hs : xs.Pairwise (· < ·)) {i : ℕ} (hi : i < xs.length)
    (h : searchsorted xs v ≤ i) : v ≤ xs[i] := by
  induction xs generalizing i with
  | nil => simp at hi
  | cons x l ih =>
    rcases List.pairwise_cons.mp hs with ⟨hx, hl⟩
    by_cases hxv : x < v
    · cases i with
      | zero =>
        have hcons : searchsorted (x :: l) v = searchsorted l v + 1 := by
          simp [searchsorted, List.countP_cons, hxv]
        omega
      | succ j =>
        have hcons : searchsorted (x :: l) v = searchsorted l v + 1 := by
          simp [searchsorted, List.countP_cons, hxv]
        rw [hcons] at h
        have hj : j < l.length := by simpa using hi
        simpa using ih hl hj (by omega)
    · cases i with
      | zero => simpa using le_of_not_lt hxv
      | succ j =>
        have hj : j < l.length := by simpa using hi
        have hxj : x < l[j] := hx _ (List.getElem_mem hj)
        have : v ≤ x := le_of_not_lt hxv
        simpa using le_of_lt (lt_of_le_of_lt this hxj)

theorem sorted_getElem_le {xs : List ℚ} (hs : xs.Pairwise (· < ·))
    {i j : ℕ} (hi : i < xs.length) (hj : j < xs.length) (hij : i ≤ j) :
    xs[i] ≤ xs[j] := by
  rcases lt_or_eq_of_le hij with hlt | rfl
  · exact le_of_lt ((List.pairwise_iff_getElem.mp hs) i j hi hj hlt)
  · exact le_refl _

theorem mono_getElem_le {ns : List ℕ} (hs : ns.Pairwise (· ≤ ·))
    {i j : ℕ} (hi : i < ns.length) (hj : j < ns.length) (hij : i ≤ j) :
    ns[i] ≤ ns[j] := by
  rcases lt_or_eq_of_le hij with hlt | rfl
  · exact (List.pairwise_iff_getElem.mp hs) i j hi hj hlt
  · exact le_refl _

theorem minTime_eq_none_iff {l : List ℚ} : minTime l = none ↔ l = [] := by
  cases l with
  | nil => simp [minTime]
  | cons a t =>
    cases h : minTime t <;> simp [minTime, h]

theorem minTime_mem {l : List ℚ} {a : ℚ} (h : minTime l = some a) : a ∈ l := by
  induction l generalizing a with
  | nil => simp [minTime] at h
  | cons x t ih =>
    cases ht : minTime t with
    | none =>
      rw [minTime, ht] at h
      simp only [Option.some.injEq] at h
      simp [← h]
    | some b =>
      rw [minTime, ht] at h
      simp only [Option.some.injEq] at h
      rcases min_choice x b with hm | hm <;> rw [hm] at h
      · simp [← h]
      · exact List.mem_cons_of_mem _ (ih (h ▸ ht))

theorem minTime_le {l : List ℚ} {a : ℚ} (h : minTime l = some a) :
    ∀ b ∈ l, a ≤ b := by
  induction l generalizing a with
  | nil => simp
  | cons x t ih =>
    intro b hb
    cases ht : minTime t with
    | none =>
      rw [minTime, ht] at h
      simp only [Option.some.injEq] at h
      have : t = [] := minTime_eq_none_iff.mp ht
      subst this
      rcases List.mem_singleton.mp hb with rfl
      exact le_of_eq h.symm
    | some c =>
      rw [minTime, ht] at h
      simp only [Option.some.injEq] at h
      rcases List.mem_cons.mp hb with heq | hbt
      · rw [heq, ← h]
        exact min_le_left x c
      · exact le_trans (h ▸ min_le_right x c) (ih ht b hbt)

theorem minTime_isSome_of_mem {l : List ℚ} {b : ℚ} (hb : b ∈ l) :
    ∃ a, minTime l = some a := by
  cases h : minTime l with
  | some a => exact ⟨a, rfl⟩
  | none =>
    rw [minTime_eq_none_iff] at h
    subst h
    simp at hb

theorem minTime_le_of_subset {l l' : List ℚ} (hsub : ∀ x ∈ l', x ∈ l)
    {b : ℚ} (hb : minTime l' = some b) :
    ∃ a, minTime l = some a ∧ a ≤ b := by
  have hbl := hsub b (minTime_mem hb)
  obtain ⟨a, ha⟩ := minTime_isSome_of_mem hbl
  exact ⟨a, ha, minTime_le ha b hbl⟩

theorem getLastD_mem : ∀ (l : List ℚ) (d : ℚ), l ≠ [] → l.getLastD d ∈ l := by
  intro l
  induction l with
  | nil => intro d h; exact absurd rfl h
  | cons a t ih =>
    intro d _
    rw [List.getLastD_cons]
    cases t with
    | nil => simp [List.getLastD]
    | cons b t' => exact List.mem_cons_of_mem _ (ih a (by simp))

theorem le_getLastD {l : List ℚ} (hs : l.Pairwise (· < ·)) {u : ℚ}
    (hu : u ∈ l) : ∀ d, u ≤ l.getLastD d := by
  induction l with
  | nil => simp at hu
  | cons a t ih =>
    intro d
    rcases List.pairwise_cons.mp hs with ⟨ha, ht⟩
    rw [List.getLastD_cons]
    rcases List.mem_cons.mp hu with heq | hut
    · cases t with
      | nil => simp [List.getLastD, heq]
      | cons b t' =>
        have hbm : (b :: t').getLastD a ∈ b :: t' := getLastD_mem _ _ (by simp)
        rw [heq]
        exact le_of_lt (ha _ hbm)
    · exact ih ht hut a

theorem lookupTB_eq_none {m : Series} {t : ℚ}
    (h : t ∉ m.map Prod.fst) : lookupTB m t = none := by
  have : m.find? (fun p => decide (p.1 = t)) = none := by
    rw [List.find?_eq_none]
    intro p hp
    simp only [decide_eq_true_eq]
    intro he
    exact h (he ▸ List.mem_map_of_mem Prod.fst hp)
  simp [lookupTB, this]

theorem eq_of_fst_eq_of_sorted {ts : Series}
    (hs : (ts.map Prod.fst).Pairwise (· < ·))
    {x y : ℚ × ℚ} (hx : x ∈ ts) (hy : y ∈ ts) (hxy : x.1 = y.1) : x = y := by
  obtain ⟨i, hi, hxi⟩ := List.mem_iff_getElem.mp hx
  obtain ⟨j, hj, hyj⟩ := List.mem_iff_getElem.mp hy
  have hmap := List.pairwise_iff_getElem.mp hs
  have hlen : (ts.map Prod.fst).length = ts.length := List.length_map ts Prod.fst
  rcases lt_trichotomy i j with hij | hij | hij
  · have := hmap i j (by omega) (by omega) hij
    simp only [List.getElem_map] at this
    rw [hxi, hyj] at this
    exact absurd hxy (ne_of_lt this)
  · subst hij
    rw [← hxi, ← hyj]
  · have := hmap j i (by omega) (by omega) hij
    simp only [List.getElem_map] at this
    rw [hxi, hyj] at this
    exact absurd hxy.symm (ne_of_lt this)

theorem priceAt_eq {ts : Series} (hs : (ts.map Prod.fst).Pairwise (· < ·))
    {x : ℚ × ℚ} (hx : x ∈ ts) : priceAt ts x.1 = x.2 := by
  have hsome : (ts.find? fun p => decide (p.1 = x.1)).isSome := by
    rw [List.find?_isSome]
    exact ⟨x, hx, by simp⟩
  obtain ⟨y, hy⟩ := Option.isSome_iff_exists.mp hsome
  have hyx : y.1 = x.1 := by
    have := List.find?_some hy
    simpa using this
  have hym : y ∈ ts := List.mem_of_find?_eq_some hy
  have : y = x := eq_of_fst_eq_of_sorted hs hym hx hyx
  simp [priceAt, hy, this]

theorem filter_lt_eq_take (n : ℕ) (ns : List ℕ) (hs : ns.Pairwise (· ≤ ·)) :
    ns.filter (fun i => decide (i < n))
      = ns.take ((ns.filter fun i => decide (i < n)).length) := by
  induction ns with
  | nil => simp
  | cons a t ih =>
    rcases List.pairwise_cons.mp hs with ⟨ha, ht⟩
    by_cases han : a < n
    · have hcons : (a :: t).filter (fun i => decide (i < n))
          = a :: t.filter (fun i => decide (i < n)) := by
        simp [List.filter_cons, han]
      rw [hcons, List.length_cons, List.take_succ_cons, ← ih ht]
    · have hnil : t.filter (fun i => decide (i < n)) = [] := by
        rw [List.filter_eq_nil_iff]
        intro b hb
        simp only [decide_eq_true_eq]
        have := ha b hb
        omega
      have hcons : (a :: t).filter (fun i => decide (i < n))
          = t.filter (fun i => decide (i < n)) := by
        simp [List.filter_cons, han]
      rw [hcons, hnil]
      simp

theorem filter_pos_eq_drop (ns : List ℕ) (hs : ns.Pairwise (· ≤ ·)) :
    ns.filter (fun i => decide (0 < i))
      = ns.drop (ns.length - (ns.filter fun i => decide (0 < i)).length) := by
  induction ns with
  | nil => simp
  | cons a t ih =>
    rcases List.pairwise_cons.mp hs with ⟨ha, ht⟩
    by_cases hap : 0 < a
    · have hall : t.filter (fun i => decide (0 < i)) = t := by
        rw [List.filter_eq_self]
        intro b hb
        simp only [decide_eq_true_eq]
        exact lt_of_lt_of_le hap (ha b hb)
      have hcons : (a :: t).filter (fun i => decide (0 < i)) = a :: t := by
        simp [List.filter_cons, hap, hall]
      rw [hcons]
      simp
    · have hcons : (a :: t).filter (fun i => decide (0 < i))
          = t.filter (fun i => decide (0 < i)) := by
        simp [List.filter_cons, hap]
      rw [hcons]
      have hk : (t.filter fun i => decide (0 < i)).length ≤ t.length :=
        List.length_filter_le _ _
      have harith : (a :: t).length - (t.filter fun i => decide (0 < i)).length
          = (t.length - (t.filter fun i => decide (0 < i)).length) + 1 := by
        simp only [List.length_cons]
        omega
      rw [harith, List.drop_succ_cons]
      exact ih ht

theorem lt_filterlen_iff_of_mono {n : ℕ} {ns : List ℕ}
    (hs : ns.Pairwise (· ≤ ·)) {i : ℕ} (hi : i < ns.length) :
    i < (ns.filter fun x => decide (x < n)).length ↔ ns[i] < n := by
  constructor
  · intro h
    have htk := filter_lt_eq_take n ns hs
    have hmem : (ns.filter fun x => decide (x < n))[i]
        ∈ ns.filter fun x => decide (x < n) := List.getElem_mem h
    have hget : (ns.filter fun x => decide (x < n))[i] = ns[i] := by
      rw [List.getElem_of_eq htk h]
      simp
    rw [hget] at hmem
    have := (List.mem_filter.mp hmem).2
    simpa using this
  · intro h
    have hsplit : ns = ns.take (i + 1) ++ ns.drop (i + 1) :=
      (List.take_append_drop (i + 1) ns).symm
    have hcount : (ns.filter fun x => decide (x < n)).length
        = ns.countP fun x => decide (x < n) :=
      (List.countP_eq_length_filter _ _).symm
    rw [hcount]
    have htake : (ns.take (i + 1)).countP (fun x => decide (x < n))
        = (ns.take (i + 1)).length := by
      rw [List.countP_eq_length]
      intro a ha
      simp only [decide_eq_true_eq]
      obtain ⟨j, hj, hja⟩ := List.mem_iff_getElem.mp ha
      have hjlen : j < ns.length := by
        have := hj
        simp only [List.length_take] at this
        omega
      have hji : j ≤ i := by
        have := hj
        simp only [List.length_take] at this
        omega
      have : (ns.take (i + 1))[j] = ns[j] := List.getElem_take _
      rw [this] at hja
      calc a = ns[j] := hja.symm
        _ ≤ ns[i] := mono_getElem_le hs hjlen hi hji
        _ < n := h
    have hlen : (ns.take (i + 1)).length = i + 1 := by
      simp only [List.length_take]
      omega
    calc i < i + 1 := by omega
      _ = (ns.take (i + 1)).countP fun x => decide (x < n) := by rw [htake, hlen]
      _ ≤ ns.countP fun x => decide (x < n) := by
          conv_rhs => rw [hsplit]
          rw [List.countP_append]
          omega

theorem sub_le_iff_pos_of_mono {ns : List ℕ}
    (hs : ns.Pairwise (· ≤ ·)) {i : ℕ} (hi : i < ns.length) :
    ns.length - (ns.filter fun x => decide (0 < x)).length ≤ i ↔ 0 < ns[i] := by
  have hk : (ns.filter fun x => decide (0 < x)).length ≤ ns.length :=
    List.length_filter_le _ _
  constructor
  · intro h
    have hdr := filter_pos_eq_drop ns hs
    have hj : i - (ns.length - (ns.filter fun x => decide (0 < x)).length)
        < (ns.filter fun x => decide (0 < x)).length := by
      have hlen : (ns.drop (ns.length - (ns.filter fun x => decide (0 < x)).length)).length
          = (ns.filter fun x => decide (0 < x)).length := by
        rw [← hdr]
      omega
    have hmem : (ns.filter fun x => decide (0 < x))[i - (ns.length - (ns.filter fun x => decide (0 < x)).length)]
        ∈ ns.filter fun x => decide (0 < x) := List.getElem_mem hj
    have hget : (ns.filter fun x => decide (0 < x))[i - (ns.length - (ns.filter fun x => decide (0 < x)).length)]
        = ns[i] := by
      rw [List.getElem_of_eq hdr hj, List.getElem_drop]
      congr 1
      omega
    rw [hget] at hmem
    have := (List.mem_filter.mp hmem).2
    simpa using this
  · intro h
    have hcount : (ns.filter fun x => decide (0 < x)).length
        = ns.countP fun x => decide (0 < x) :=
      (List.countP_eq_length_filter _ _).symm
    have hdropc : (ns.drop i).countP (fun x => decide (0 < x))
        = (ns.drop i).length := by
      rw [List.countP_eq_length]
      intro a ha
      simp only [decide_eq_true_eq]
      obtain ⟨j, hj, hja⟩ := List.mem_iff_getElem.mp ha
      have hijlen : i + j < ns.length := by
        have := hj
        simp only [List.length_drop] at this
        omega
      have : (ns.drop i)[j] = ns[i + j] := List.getElem_drop _
      rw [this] at hja
      calc 0 < ns[i] := h
        _ ≤ ns[i + j] := mono_getElem_le hs hi hijlen (by omega)
        _ = a := hja

    have hsplit : ns = ns.take i ++ ns.drop i := (List.take_append_drop i ns).symm
    have : ns.length - i ≤ ns.countP fun x => decide (0 < x) := by
      conv_rhs => rw [hsplit]
      rw [List.countP_append, hdropc]
      simp only [List.length_drop]
      omega
    rw [hcount]
    omega

theorem avb_nearest_pairwise (times : List ℚ) (hq : ℚ)
    (hs : times.Pairwise (· < ·)) :
    (times.map fun t => searchsorted times (t + hq)).Pairwise (· ≤ ·) := by
  rw [List.pairwise_map]
  refine hs.imp ?_
  intro a b hab
  refine List.countP_mono_left ?_
  intro u _ hp
  simp only [decide_eq_true_eq] at hp ⊢
  linarith

theorem avb_length (times : List ℚ) (hq : ℚ) :
    (add_vertical_barrier times hq).length
      = ((times.map fun t => searchsorted times (t + hq)).filter
          fun i => decide (i < times.length)).length := by
  have hk : ((times.map fun t => searchsorted times (t + hq)).filter
      fun i => decide (i < times.length)).length ≤ times.length := by
    calc ((times.map fun t => searchsorted times (t + hq)).filter
        fun i => decide (i < times.length)).length
        ≤ (times.map fun t => searchsorted times (t + hq)).length :=
          List.length_filter_le _ _
      _ = times.length := by simp
  simp only [add_vertical_barrier, List.length_zipWith, List.length_take]
  omega

theorem avb_getElem (times : List ℚ) (hq : ℚ) (hs : times.Pairwise (· < ·))
    {j : ℕ} (hj : j < (add_vertical_barrier times hq).length) :
    ∃ (hjt : j < times.length)
      (hlt : searchsorted times (times[j] + hq) < times.length),
      (add_vertical_barrier times hq)[j]
        = (times[j], times[searchsorted times (times[j] + hq)]) := by
  have hmono := avb_nearest_pairwise times hq hs
  have hunfold : add_vertical_barrier times hq
      = List.zipWith (fun t i => (t, times.getD i 0))
          (times.take ((times.map fun t => searchsorted times (t + hq)).filter
            fun i => decide (i < times.length)).length)
          ((times.map fun t => searchsorted times (t + hq)).filter
            fun i => decide (i < times.length)) := rfl
  set ns := times.map fun t => searchsorted times (t + hq) with hns
  set kept := ns.filter fun i => decide (i < times.length) with hkept
  have hkle : kept.length ≤ times.length := by
    calc kept.length ≤ ns.length := List.length_filter_le _ _
      _ = times.length := by rw [hns]; simp
  have hlen : (add_vertical_barrier times hq).length = kept.length :=
    avb_length times hq
  have hjk : j < kept.length := by rw [← hlen]; exact hj
  have hjt : j < times.length := lt_of_lt_of_le hjk hkle
  have htk := filter_lt_eq_take times.length ns hmono
  have hkeptj : kept[j] = searchsorted times (times[j] + hq) := by
    rw [List.getElem_of_eq htk hjk]
    rw [List.getElem_take]
    simp [hns]
  have hpred : kept[j] < times.length := by
    have hmem : kept[j] ∈ kept := List.getElem_mem hjk
    have := (List.mem_filter.mp hmem).2
    simpa using this
  have hlt : searchsorted times (times[j] + hq) < times.length := by
    rw [← hkeptj]; exact hpred
  refine ⟨hjt, hlt, ?_⟩
  have hjtake : j < (times.take kept.length).length := by
    simp only [List.length_take]
    omega
  have hstep : (add_vertical_barrier times hq)[j]
      = ((times.take kept.length)[j], times.getD (kept[j]) 0) := by
    rw [List.getElem_of_eq hunfold hj]
    rw [List.getElem_zipWith]
  rw [hstep, List.getElem_take, hkeptj]
  rw [List.getD_eq_getElem _ _ hlt]

theorem avb_fst_eq (times : List ℚ) (hq : ℚ) (hs : times.Pairwise (· < ·)) :
    (add_vertical_barrier times hq).map Prod.fst
      = times.take (add_vertical_barrier times hq).length := by
  apply List.ext_getElem
  · have hkle : (add_vertical_barrier times hq).length ≤ times.length := by
      rw [avb_length]
      calc ((times.map fun t => searchsorted times (t + hq)).filter
          fun i => decide (i < times.length)).length
          ≤ (times.map fun t => searchsorted times (t + hq)).length :=
            List.length_filter_le _ _
        _ = times.length := by simp
    simp only [List.length_map, List.length_take]
    omega
  · intro j hj1 hj2
    have hj : j < (add_vertical_barrier times hq).length := by
      simpa using hj1
    obtain ⟨hjt, hlt, heq⟩ := avb_getElem times hq hs hj
    simp only [List.getElem_map, List.getElem_take]
    rw [heq]

theorem avb_domain_iff (times : List ℚ) (hq : ℚ) (hs : times.Pairwise (· < ·))
    {t : ℚ} (ht : t ∈ times) :
    t ∈ (add_vertical_barrier times hq).map Prod.fst
      ↔ ∃ u ∈ times, t + hq ≤ u := by
  have hmono := avb_nearest_pairwise times hq hs
  set ns := times.map fun t => searchsorted times (t + hq) with hns
  have hnslen : ns.length = times.length := by rw [hns]; simp
  constructor
  · intro hmem
    rw [avb_fst_eq times hq hs] at hmem
    obtain ⟨j, hj, hjt⟩ := List.mem_iff_getElem.mp hmem
    have hjlen : j < (add_vertical_barrier times hq).length := by
      have := hj
      simp only [List.length_take] at this
      omega
    have hjtimes : j < times.length := by
      have := hj
      simp only [List.length_take] at this
      omega
    have hjns : j < ns.length := by omega
    have hjk : j < (ns.filter fun i => decide (i < times.length)).length := by
      rw [← avb_length]
      exact hjlen
    have hpred := (lt_filterlen_iff_of_mono hmono hjns).mp hjk
    have hnsj : ns[j] = searchsorted times (times[j] + hq) := by
      simp [hns]
    rw [hnsj] at hpred
    have := (searchsorted_lt_length_iff times (times[j] + hq)).mp hpred
    have hteq : (times.take (add_vertical_barrier times hq).length)[j]
        = times[j] := List.getElem_take _
    rw [hteq] at hjt
    rw [← hjt]
    exact this
  · rintro ⟨u, hu, hle⟩
    obtain ⟨i, hi, hit⟩ := List.mem_iff_getElem.mp ht
    have hins : i < ns.length := by omega
    have hpred : ns[i] < times.length := by
      have hnsi : ns[i] = searchsorted times (times[i] + hq) := by
        simp [hns]
      rw [hnsi, hit]
      exact (searchsorted_lt_length_iff times (t + hq)).mpr ⟨u, hu, hle⟩
    have hik : i < (ns.filter fun x => decide (x < times.length)).length :=
      (lt_filterlen_iff_of_mono hmono hins).mpr hpred
    have hilen : i < (add_vertical_barrier times hq).length := by
      rw [avb_length]
      exact hik
    rw [avb_fst_eq times hq hs]
    rw [List.mem_iff_getElem]
    refine ⟨i, by simp only [List.length_take]; omega, ?_⟩
    rw [List.getElem_take]
    exact hit

theorem touch_barrier_fst_eq (close : Series) (pf sf loc : ℚ)
    (t1v : Option ℚ) (trgt side : ℚ) :
    (touch_barrier close pf sf loc t1v trgt side).1
      = if 0 < sf then
          minTime (((tb_slice close loc (t1v.getD (lastTime close))).filter fun x =>
            decide ((x.2 / priceAt close loc - 1) * side < -sf * trgt)).map Prod.fst)
        else none := rfl

theorem touch_barrier_snd_eq (close : Series) (pf sf loc : ℚ)
    (t1v : Option ℚ) (trgt side : ℚ) :
    (touch_barrier close pf sf loc t1v trgt side).2
      = if 0 < pf then
          minTime (((tb_slice close loc (t1v.getD (lastTime close))).filter fun x =>
            decide (pf * trgt < (x.2 / priceAt close loc - 1) * side)).map Prod.fst)
        else none := rfl

theorem mem_tb_slice {close : Series} {lo hi : ℚ} {x : ℚ × ℚ}
    (hx : x ∈ tb_slice close lo hi) :
    x ∈ close ∧ lo ≤ x.1 ∧ x.1 ≤ hi := by
  have := List.mem_filter.mp hx
  refine ⟨this.1, ?_⟩
  have := this.2
  simpa using this

theorem touch_barrier_fst_le {close : Series} {pf sf loc trgt side : ℚ}
    {t1v : Option ℚ} {u : ℚ}
    (h : (touch_barrier close pf sf loc t1v trgt side).1 = some u) :
    u ≤ t1v.getD (lastTime close) := by
  rw [touch_barrier_fst_eq] at h
  by_cases hsf : 0 < sf
  · rw [if_pos hsf] at h
    obtain ⟨x, hx, hxu⟩ := List.mem_map.mp (minTime_mem h)
    have := (mem_tb_slice (List.mem_filter.mp hx).1).2.2
    rw [← hxu]
    exact this
  · rw [if_neg hsf] at h
    exact absurd h (by simp)

theorem touch_barrier_snd_le {close : Series} {pf sf loc trgt side : ℚ}
    {t1v : Option ℚ} {u : ℚ}
    (h : (touch_barrier close pf sf loc t1v trgt side).2 = some u) :
    u ≤ t1v.getD (lastTime close) := by
  rw [touch_barrier_snd_eq] at h
  by_cases hpf : 0 < pf
  · rw [if_pos hpf] at h
    obtain ⟨x, hx, hxu⟩ := List.mem_map.mp (minTime_mem h)
    have := (mem_tb_slice (List.mem_filter.mp hx).1).2.2
    rw [← hxu]
    exact this
  · rw [if_neg hpf] at h
    exact absurd h (by simp)

theorem resolveT1_le {t1v pt sl : Option ℚ} {v u : ℚ}
    (ht1 : t1v = some v)
    (hpt : ∀ w, pt = some w → w ≤ v)
    (hsl : ∀ w, sl = some w → w ≤ v)
    (hu : resolveT1 t1v pt sl = some u) : u ≤ v := by
  have hmem := minTime_mem hu
  subst ht1
  simp only [Option.toList_some, List.mem_append, List.mem_singleton] at hmem
  rcases hmem with (huv | hupt) | husl
  · exact le_of_eq huv
  · rcases Option.mem_toList.mp hupt with hmem2
    exact hpt u (Option.mem_def.mp hmem2)
  · rcases Option.mem_toList.mp husl with hmem2
    exact hsl u (Option.mem_def.mp hmem2)

theorem get_events_none_rows_mem {close target vbs : Series} {f0 f1 : ℚ}
    {e : TBEvent}
    (he : e ∈ (get_events close f0 f1 target vbs none).rows) :
    ∃ st ∈ target,
      e = ⟨st.1, first_touch_t1 close f0 f0 vbs st.1 st.2 1, st.2, none, f0, f1⟩ := by
  simp only [get_events, List.mem_map] at he
  obtain ⟨st, hst, heq⟩ := he
  exact ⟨st, hst, heq.symm⟩

theorem first_touch_t1_unfold (close : Series) (pf sf : ℚ) (vb : Series)
    (s trgt side : ℚ) :
    first_touch_t1 close pf sf vb s trgt side
      = resolveT1 (lookupTB vb s)
          (touch_barrier close pf sf s (lookupTB vb s) trgt side).2
          (touch_barrier close pf sf s (lookupTB vb s) trgt side).1 := rfl

theorem spec_first_touch_unfold (close : Series) (pf sf : ℚ) (vb : Series)
    (s trgt side : ℚ) :
    spec_first_touch_t1 close pf sf vb s trgt side
      = resolveT1 (lookupTB vb s)
          (spec_pt_time close pf s ((lookupTB vb s).getD (lastTime close)) trgt side)
          (spec_sl_time close sf s ((lookupTB vb s).getD (lastTime close)) trgt side) := rfl

theorem first_touch_eq_spec (close : Series) (pf sf : ℚ) (vb : Series)
    (s trgt side : ℚ) (hpf : 0 ≤ pf) (hsf : 0 ≤ sf) :
    first_touch_t1 close pf sf vb s trgt side
      = spec_first_touch_t1 close pf sf vb s trgt side := by
  have hpt : (touch_barrier close pf sf s (lookupTB vb s) trgt side).2
      = spec_pt_time close pf s ((lookupTB vb s).getD (lastTime close)) trgt side := by
    rw [touch_barrier_snd_eq, spec_pt_time]
    rcases eq_or_lt_of_le hpf with h | h
    · rw [if_neg (by rw [← h]; exact lt_irrefl 0), if_pos h.symm]
    · rw [if_pos h, if_neg (ne_of_gt h)]
  have hsl : (touch_barrier close pf sf s (lookupTB vb s) trgt side).1
      = spec_sl_time close sf s ((lookupTB vb s).getD (lastTime close)) trgt side := by
    rw [touch_barrier_fst_eq, spec_sl_time]
    rcases eq_or_lt_of_le hsf with h | h
    · rw [if_neg (by rw [← h]; exact lt_irrefl 0), if_pos h.symm]
    · rw [if_pos h, if_neg (ne_of_gt h)]
  rw [first_touch_t1_unfold, spec_first_touch_unfold, hpt, hsl]

/-! ### Claim theorems -/

/-- C1 counterexample: with configured factors `[1, 2]` (profitFactor 1,
stopFactor 2) and no side prediction, the pipeline's first-touch
resolution does not match the spec's thresholds
`profitTake = profitFactor * target`, `stopLoss = -stopFactor * target`:
on the series `[(0,100), (1,89), (2,120)]` with target `1/10` and vertical
barrier `2`, the code resolves the event at a stop-loss touch at time 1
(threshold `-1 * 1/10`, from the profit factor), while the spec's
thresholds give no stop-loss touch and resolution at time 2. -/
theorem C1_counterexample :
    ∃ e ∈ (get_events [((0 : ℚ), (100 : ℚ)), (1, 89), (2, 120)] 1 2
        [((0 : ℚ), (1/10 : ℚ))] [((0 : ℚ), (2 : ℚ))] none).rows,
      e.t1 ≠ spec_first_touch_t1 [((0 : ℚ), (100 : ℚ)), (1, 89), (2, 120)] 1 2
        [((0 : ℚ), (2 : ℚ))] e.start e.trgt 1 := by
  refine ⟨⟨0, some 1, 1/10, none, 1, 2⟩, ?_, ?_⟩
  · norm_num [get_events, first_touch_t1, touch_barrier, resolveT1, minTime,
      lookupTB, List.find?, tb_slice, List.filter, priceAt, lastTime]
  · norm_num [spec_first_touch_t1, spec_pt_time, spec_sl_time, resolveT1,
      minTime, lookupTB, List.find?, tb_slice, List.filter, priceAt, lastTime]

/-- C1 amended: the profit-take threshold is `profitFactor * target(s)`
and the stop-loss threshold is `-stopFactor * target(s)` only when a side
prediction is supplied; in the default case (no side prediction) the
effective factor pair is `[profitFactor, profitFactor]`, so the stop-loss
threshold is `-profitFactor * target(s)`. -/
theorem C1_amended (close target vbs : Series) (f0 f1 : ℚ)
    (hf0 : 0 ≤ f0) (hf1 : 0 ≤ f1) :
    (∀ e ∈ (get_events close f0 f1 target vbs none).rows,
        e.t1 = spec_first_touch_t1 close f0 f0 vbs e.start e.trgt 1)
    ∧ ∀ sp : Series, ∀ e ∈ (get_events close f0 f1 target vbs (some sp)).rows,
        ∀ sdv, e.sideCol = some sdv →
          e.t1 = spec_first_touch_t1 close f0 f1 vbs e.start e.trgt sdv := by
  constructor
  · intro e he
    obtain ⟨st, _, heq⟩ := get_events_none_rows_mem he
    have hstart : e.start = st.1 := by rw [heq]
    have htrgt : e.trgt = st.2 := by rw [heq]
    have ht1 : e.t1 = first_touch_t1 close f0 f0 vbs st.1 st.2 1 := by rw [heq]
    rw [ht1, hstart, htrgt]
    exact first_touch_eq_spec close f0 f0 vbs st.1 st.2 1 hf0 hf0
  · intro sp e he sdv hsdv
    simp only [get_events, List.mem_map] at he
    obtain ⟨st, _, heq⟩ := he
    have hstart : e.start = st.1 := by rw [← heq]
    have htrgt : e.trgt = st.2 := by rw [← heq]
    have hside : e.sideCol = lookupTB sp st.1 := by rw [← heq]
    rw [hside] at hsdv
    have ht1 : e.t1 = first_touch_t1 close f0 f1 vbs st.1 st.2 sdv := by
      rw [← heq]
      simp only [hsdv]
    rw [ht1, hstart, htrgt]
    exact first_touch_eq_spec close f0 f1 vbs st.1 st.2 sdv hf0 hf1

/-- C1 witness: at the counterexample input, the resolved touch time of
the single event equals the spec formulas evaluated with the profit factor
in both threshold slots. -/
theorem C1_amended_witness :
    (⟨(0 : ℚ), some 1, 1/10, none, 1, 2⟩ : TBEvent).t1
      = spec_first_touch_t1 [((0 : ℚ), (100 : ℚ)), (1, 89), (2, 120)] 1 1
          [((0 : ℚ), (2 : ℚ))] 0 (1/10) 1 := by
  have h := (C1_amended [((0 : ℚ), (100 : ℚ)), (1, 89), (2, 120)]
    [((0 : ℚ), (1/10 : ℚ))] [((0 : ℚ), (2 : ℚ))] 1 2
    (by norm_num) (by norm_num)).1
  exact h ⟨0, some 1, 1/10, none, 1, 2⟩
    (by norm_num [get_events, first_touch_t1, touch_barrier, resolveT1,
      minTime, lookupTB, List.find?, tb_slice, List.filter, priceAt, lastTime])

/-- C2: for every row of the assembled events table (either branch of
`get_events`), when the event's start has a vertical barrier `v` in the
vertical-barrier mapping, the resolved first-touch time `t1` satisfies
`t1 ≤ v`: the vertical barrier is an upper bound on the resolution time. -/
theorem C2_touch_le_vertical (close target vbs : Series) (f0 f1 : ℚ)
    (sp : Option Series) (e : TBEvent)
    (he : e ∈ (get_events close f0 f1 target vbs sp).rows)
    (v : ℚ) (hv : lookupTB vbs e.start = some v)
    (u : ℚ) (hu : e.t1 = some u) : u ≤ v := by
  have hvb : (lookupTB vbs e.start).getD (lastTime close) = v := by
    rw [hv]; rfl
  cases sp with
  | none =>
    obtain ⟨st, hst, heq⟩ := get_events_none_rows_mem he
    have hstart : e.start = st.1 := by rw [heq]
    have ht1 : e.t1 = first_touch_t1 close f0 f0 vbs st.1 st.2 1 := by rw [heq]
    rw [ht1, first_touch_t1_unfold] at hu
    rw [hstart] at hv hvb
    refine resolveT1_le hv ?_ ?_ hu
    · intro w hw
      have := touch_barrier_snd_le hw
      rw [hvb] at this
      exact this
    · intro w hw
      have := touch_barrier_fst_le hw
      rw [hvb] at this
      exact this
  | some spv =>
    simp only [get_events, List.mem_map] at he
    obtain ⟨st, hst, heq⟩ := he
    have hstart : e.start = st.1 := by rw [← heq]
    rw [hstart] at hv hvb
    cases hsd : lookupTB spv st.1 with
    | some sdv =>
      have ht1 : e.t1 = first_touch_t1 close f0 f1 vbs st.1 st.2 sdv := by
        rw [← heq]
        simp only [hsd]
      rw [ht1, first_touch_t1_unfold] at hu
      refine resolveT1_le hv ?_ ?_ hu
      · intro w hw
        have := touch_barrier_snd_le hw
        rw [hvb] at this
        exact this
      · intro w hw
        have := touch_barrier_fst_le hw
        rw [hvb] at this
        exact this
    | none =>
      have ht1 : e.t1 = resolveT1 (lookupTB vbs st.1) none none := by
        rw [← heq]
        simp only [hsd]
      rw [ht1] at hu
      refine resolveT1_le hv ?_ ?_ hu
      · intro w hw
        exact absurd hw (by simp)
      · intro w hw
        exact absurd hw (by simp)

theorem get_labels_rows_mem {m : LabelMode} {ev : EventsTable}
    {close : Series} {lbl : TBLabel}
    (h : lbl ∈ (get_labels m ev close).rows) :
    ∃ e ∈ ev.rows, e.t1.isSome ∧ lbl = label_row m close ev.hasSide e := by
  simp only [get_labels, List.mem_map, List.mem_filter] at h
  obtain ⟨e, ⟨he, hsome⟩, heq⟩ := h
  exact ⟨e, he, hsome, heq.symm⟩

theorem label_row_bin (m : LabelMode) (close : Series) (hS : Bool)
    (e : TBEvent) :
    (label_row m close hS e).bin
      = barrier_touched_bin m (priceBfill close (e.t1.getD 0)) e.trgt
          (priceAt close e.start) e.pt e.sl := rfl

theorem barrier_touched_bin_classification (ret trgt ip pt sl : ℚ) :
    barrier_touched_bin LabelMode.classification ret trgt ip pt sl
      = if ip + ip * pt * trgt < ret then 1
        else if ret < ip - ip * sl * trgt then -1 else 0 := rfl

theorem barrier_touched_bin_regression (ret trgt ip pt sl : ℚ) :
    barrier_touched_bin LabelMode.regression ret trgt ip pt sl
      = if ip + ip * pt * trgt < ret then 1
        else if ret < ip - ip * sl * trgt then -1
        else maxByAbs ((ret - ip) / (ip + ip * pt * trgt - ip))
          ((ret - ip) / (ip - (ip - ip * sl * trgt))) := rfl

/-- C3 counterexample: in Regression mode, a row with `bin = 1` can come
from the vertical-barrier branch without the touch price strictly
exceeding the top barrier.  On the series `[(0,100), (1,110)]` with target
`1/10`, horizon 1 and factors `[1, 1]`, the single event resolves at the
vertical barrier (time 1, price 110 equal to the top barrier 110), the
regression formula assigns `bin = 1`, yet the price at the touch time does
not strictly exceed the top barrier. -/
theorem C3_counterexample :
    (triple_barrier_pipeline [((0 : ℚ), (100 : ℚ)), (1, 110)]
        [((0 : ℚ), (1/10 : ℚ))] 1 1 1 LabelMode.regression).rows
      = [⟨0, 1/10, 1/10, 1, none⟩]
    ∧ (get_events [((0 : ℚ), (100 : ℚ)), (1, 110)] 1 1
        [((0 : ℚ), (1/10 : ℚ))]
        (add_vertical_barrier [(0 : ℚ), 1] 1) none).rows.map TBEvent.t1
      = [some 1]
    ∧ ¬ (priceAt [((0 : ℚ), (100 : ℚ)), (1, 110)] 0
          + priceAt [((0 : ℚ), (100 : ℚ)), (1, 110)] 0 * 1 * (1/10)
        < priceBfill [((0 : ℚ), (100 : ℚ)), (1, 110)] 1) := by
  refine ⟨?_, ?_, ?_⟩
  · norm_num [triple_barrier_pipeline, get_labels, get_events,
      add_vertical_barrier, searchsorted, List.countP, List.countP.go,
      first_touch_t1, touch_barrier, resolveT1, minTime, lookupTB,
      List.find?, tb_slice, List.filter, priceAt, priceBfill, lastTime,
      label_row, barrier_touched_bin, maxByAbs]
  · norm_num [get_events, add_vertical_barrier, searchsorted, List.countP,
      List.countP.go, first_touch_t1, touch_barrier, resolveT1, minTime,
      lookupTB, List.find?, tb_slice, List.filter, priceAt, lastTime]
  · norm_num [priceAt, priceBfill, List.find?]

/-- C3 amended: in Classification mode, for every row of the output label
table there is a generating event such that `bin = 1` implies the
(backfilled) price at the touch time strictly exceeds the top barrier
`initialPrice + initialPrice * pt * target`, `bin = -1` implies it is
strictly below the bottom barrier `initialPrice - initialPrice * sl *
target`, and `bin = 0` implies neither.  (In Regression mode the first two
implications fail at the vertical-barrier branch, see the
counterexample.) -/
theorem C3_classification_bins (close : Series) (ev : EventsTable)
    (lbl : TBLabel)
    (hmem : lbl ∈ (get_labels LabelMode.classification ev close).rows) :
    ∃ e ∈ ev.rows, e.t1.isSome
      ∧ lbl = label_row LabelMode.classification close ev.hasSide e
      ∧ (lbl.bin = 1 →
          priceAt close e.start + priceAt close e.start * e.pt * e.trgt
            < priceBfill close (e.t1.getD 0))
      ∧ (lbl.bin = -1 →
          priceBfill close (e.t1.getD 0)
            < priceAt close e.start - priceAt close e.start * e.sl * e.trgt)
      ∧ (lbl.bin = 0 →
          ¬ (priceAt close e.start + priceAt close e.start * e.pt * e.trgt
              < priceBfill close (e.t1.getD 0))
          ∧ ¬ (priceBfill close (e.t1.getD 0)
              < priceAt close e.start - priceAt close e.start * e.sl * e.trgt)) := by
  obtain ⟨e, he, hsome, heq⟩ := get_labels_rows_mem hmem
  have hbin : lbl.bin
      = barrier_touched_bin LabelMode.classification
          (priceBfill close (e.t1.getD 0)) e.trgt (priceAt close e.start)
          e.pt e.sl := by
    rw [heq, label_row_bin]
  rw [barrier_touched_bin_classification] at hbin
  by_cases h1 : priceAt close e.start
      + priceAt close e.start * e.pt * e.trgt < priceBfill close (e.t1.getD 0)
  · have hb : lbl.bin = 1 := by rw [hbin, if_pos h1]
    refine ⟨e, he, hsome, heq, fun _ => h1, fun hc => ?_, fun hc => ?_⟩
    · rw [hb] at hc; norm_num at hc
    · rw [hb] at hc; norm_num at hc
  · by_cases h2 : priceBfill close (e.t1.getD 0)
        < priceAt close e.start - priceAt close e.start * e.sl * e.trgt
    · have hb : lbl.bin = -1 := by rw [hbin, if_neg h1, if_pos h2]
      refine ⟨e, he, hsome, heq, fun hc => ?_, fun _ => h2, fun hc => ?_⟩
      · rw [hb] at hc; norm_num at hc
      · rw [hb] at hc; norm_num at hc
    · have hb : lbl.bin = 0 := by rw [hbin, if_neg h1, if_neg h2]
      refine ⟨e, he, hsome, heq, fun hc => ?_, fun hc => ?_, fun _ => ⟨h1, h2⟩⟩
      · rw [hb] at hc; norm_num at hc
      · rw [hb] at hc; norm_num at hc

/-- C3 witness: a concrete classification-mode run whose single row has
`bin = 1` and whose touch price 120 strictly exceeds the top barrier
110. -/
theorem C3_classification_bins_witness :
    ∃ e ∈ (⟨[⟨(0 : ℚ), some 1, 1/10, none, 1, 1⟩], false⟩ : EventsTable).rows,
      e.t1.isSome
      ∧ (⟨(0 : ℚ), (1/5 : ℚ), 1/10, 1, none⟩ : TBLabel)
          = label_row LabelMode.classification
              [((0 : ℚ), (100 : ℚ)), (1, 120)] false e
      ∧ ((⟨(0 : ℚ), (1/5 : ℚ), 1/10, 1, none⟩ : TBLabel).bin = 1 →
          priceAt [((0 : ℚ), (100 : ℚ)), (1, 120)] e.start
            + priceAt [((0 : ℚ), (100 : ℚ)), (1, 120)] e.start * e.pt * e.trgt
            < priceBfill [((0 : ℚ), (100 : ℚ)), (1, 120)] (e.t1.getD 0))
      ∧ ((⟨(0 : ℚ), (1/5 : ℚ), 1/10, 1, none⟩ : TBLabel).bin = -1 →
          priceBfill [((0 : ℚ), (100 : ℚ)), (1, 120)] (e.t1.getD 0)
            < priceAt [((0 : ℚ), (100 : ℚ)), (1, 120)] e.start
              - priceAt [((0 : ℚ), (100 : ℚ)), (1, 120)] e.start * e.sl * e.trgt)
      ∧ ((⟨(0 : ℚ), (1/5 : ℚ), 1/10, 1, none⟩ : TBLabel).bin = 0 →
          ¬ (priceAt [((0 : ℚ), (100 : ℚ)), (1, 120)] e.start
              + priceAt [((0 : ℚ), (100 : ℚ)), (1, 120)] e.start * e.pt * e.trgt
              < priceBfill [((0 : ℚ), (100 : ℚ)), (1, 120)] (e.t1.getD 0))
          ∧ ¬ (priceBfill [((0 : ℚ), (100 : ℚ)), (1, 120)] (e.t1.getD 0)
              < priceAt [((0 : ℚ), (100 : ℚ)), (1, 120)] e.start
                - priceAt [((0 : ℚ), (100 : ℚ)), (1, 120)] e.start * e.sl * e.trgt)) := by
  refine C3_classification_bins [((0 : ℚ), (100 : ℚ)), (1, 120)]
    ⟨[⟨(0 : ℚ), some 1, 1/10, none, 1, 1⟩], false⟩
    ⟨(0 : ℚ), (1/5 : ℚ), 1/10, 1, none⟩ ?_
  norm_num [get_labels, List.filter, label_row, priceAt, priceBfill,
    List.find?, barrier_touched_bin, maxByAbs]

/-- C6 counterexample: on the constant series `[(0,100), (1,100)]` with a
zero volatility target (what the EWM standard deviation yields on constant
prices), horizon 1, equal factors `[2, 2]` and Regression mode, the single
event resolves at the vertical barrier with equal factors and zero barrier
distance: both progress ratios of line 155-157 are `0 / 0`, which in the
source's numpy float arithmetic is NaN, so the program's `bin` is NaN and
`|bin| ≤ 1` fails.  The conjuncts show the pipeline reaches exactly this
row (the rational embedding's total division collapses it to `bin = 0`),
that the outcome is the vertical barrier, and that the source's ratio at
this row leaves the rationals (`float_div? … = none`). -/
theorem C6_counterexample :
    (triple_barrier_pipeline [((0 : ℚ), (100 : ℚ)), (1, 100)]
        [((0 : ℚ), (0 : ℚ))] 1 2 2 LabelMode.regression).rows
      = [⟨0, 0, 0, 0, none⟩]
    ∧ ¬ (priceAt [((0 : ℚ), (100 : ℚ)), (1, 100)] 0
          + priceAt [((0 : ℚ), (100 : ℚ)), (1, 100)] 0 * 2 * 0
        < priceBfill [((0 : ℚ), (100 : ℚ)), (1, 100)] 1)
    ∧ ¬ (priceBfill [((0 : ℚ), (100 : ℚ)), (1, 100)] 1
        < priceAt [((0 : ℚ), (100 : ℚ)), (1, 100)] 0
          - priceAt [((0 : ℚ), (100 : ℚ)), (1, 100)] 0 * 2 * 0)
    ∧ float_div? (priceBfill [((0 : ℚ), (100 : ℚ)), (1, 100)] 1
          - priceAt [((0 : ℚ), (100 : ℚ)), (1, 100)] 0)
        (priceAt [((0 : ℚ), (100 : ℚ)), (1, 100)] 0
          + priceAt [((0 : ℚ), (100 : ℚ)), (1, 100)] 0 * 2 * 0
          - priceAt [((0 : ℚ), (100 : ℚ)), (1, 100)] 0) = none := by
  refine ⟨?_, ?_, ?_, ?_⟩
  · norm_num [triple_barrier_pipeline, get_labels, get_events,
      add_vertical_barrier, searchsorted, List.countP, List.countP.go,
      first_touch_t1, touch_barrier, resolveT1, minTime, lookupTB,
      List.find?, tb_slice, List.filter, priceAt, priceBfill, lastTime,
      label_row, barrier_touched_bin, maxByAbs]
  · norm_num [priceAt, priceBfill, List.find?]
  · norm_num [priceAt, priceBfill, List.find?]
  · norm_num [float_div?, priceAt, priceBfill, List.find?]

/-- C6 amended: in Regression mode, every row of the output label table
comes from an event such that, when the configured profit and stop
factors recorded on the event agree, the outcome is the vertical barrier
(the touch price neither strictly above the top barrier nor strictly
below the bottom barrier), and the common barrier distance
`initialPrice * factor * target` is non-zero, the assigned `bin` has
absolute value at most 1.  When that distance is zero the source divides
0 by 0 and `bin` is NaN instead (see the counterexample), so the
non-zero-distance hypothesis is required; the proof uses only genuine
division by the positive distance, never `0 / 0 = 0`. -/
theorem C6_regression_vertical_bound (close : Series) (ev : EventsTable)
    (lbl : TBLabel)
    (hmem : lbl ∈ (get_labels LabelMode.regression ev close).rows) :
    ∃ e ∈ ev.rows, lbl = label_row LabelMode.regression close ev.hasSide e
      ∧ (e.pt = e.sl →
         ¬ (priceAt close e.start + priceAt close e.start * e.pt * e.trgt
              < priceBfill close (e.t1.getD 0)) →
         ¬ (priceBfill close (e.t1.getD 0)
              < priceAt close e.start - priceAt close e.start * e.sl * e.trgt) →
         priceAt close e.start + priceAt close e.start * e.pt * e.trgt
              - priceAt close e.start ≠ 0 →
         |lbl.bin| ≤ 1) := by
  obtain ⟨e, he, _, heq⟩ := get_labels_rows_mem hmem
  refine ⟨e, he, heq, ?_⟩
  intro hps h1 h2 hDne
  have hbin : lbl.bin
      = barrier_touched_bin LabelMode.regression
          (priceBfill close (e.t1.getD 0)) e.trgt (priceAt close e.start)
          e.pt e.sl := by
    rw [heq, label_row_bin]
  rw [barrier_touched_bin_regression, if_neg h1, if_neg h2] at hbin
  have hdeq : priceAt close e.start
        - (priceAt close e.start - priceAt close e.start * e.sl * e.trgt)
      = priceAt close e.start + priceAt close e.start * e.pt * e.trgt
        - priceAt close e.start := by
    rw [hps]; ring
  rw [hdeq] at hbin
  have hmaxeq : lbl.bin
      = (priceBfill close (e.t1.getD 0) - priceAt close e.start)
        / (priceAt close e.start + priceAt close e.start * e.pt * e.trgt
            - priceAt close e.start) := by
    rw [hbin, maxByAbs, if_neg (lt_irrefl _)]
  rw [← hps] at h2
  have habs : |priceBfill close (e.t1.getD 0) - priceAt close e.start|
      ≤ priceAt close e.start + priceAt close e.start * e.pt * e.trgt
        - priceAt close e.start := by
    rw [abs_le]
    constructor <;> [skip; skip] <;> nlinarith [h1, h2]
  have hD : 0 ≤ priceAt close e.start
      + priceAt close e.start * e.pt * e.trgt - priceAt close e.start :=
    le_trans (abs_nonneg _) habs
  have hDpos : 0 < priceAt close e.start
      + priceAt close e.start * e.pt * e.trgt - priceAt close e.start :=
    lt_of_le_of_ne hD (Ne.symm hDne)
  rw [hmaxeq, abs_div, abs_of_pos hDpos, div_le_one hDpos]
  exact habs

/-- C6 witness: a vertical-barrier outcome on `[(0,100), (1,105)]` with
equal factors and positive barrier distance 10, where the assigned
regression bin is `1/2`. -/
theorem C6_regression_vertical_bound_witness :
    ∃ e ∈ (⟨[⟨(0 : ℚ), some 1, 1/10, none, 1, 1⟩], false⟩ : EventsTable).rows,
      (⟨(0 : ℚ), (1/20 : ℚ), 1/10, 1/2, none⟩ : TBLabel)
        = label_row LabelMode.regression
            [((0 : ℚ), (100 : ℚ)), (1, 105)] false e
      ∧ (e.pt = e.sl →
         ¬ (priceAt [((0 : ℚ), (100 : ℚ)), (1, 105)] e.start
              + priceAt [((0 : ℚ), (100 : ℚ)), (1, 105)] e.start * e.pt * e.trgt
              < priceBfill [((0 : ℚ), (100 : ℚ)), (1, 105)] (e.t1.getD 0)) →
         ¬ (priceBfill [((0 : ℚ), (100 : ℚ)), (1, 105)] (e.t1.getD 0)
              < priceAt [((0 : ℚ), (100 : ℚ)), (1, 105)] e.start
                - priceAt [((0 : ℚ), (100 : ℚ)), (1, 105)] e.start * e.sl * e.trgt) →
         priceAt [((0 : ℚ), (100 : ℚ)), (1, 105)] e.start
              + priceAt [((0 : ℚ), (100 : ℚ)), (1, 105)] e.start * e.pt * e.trgt
              - priceAt [((0 : ℚ), (100 : ℚ)), (1, 105)] e.start ≠ 0 →
         |(⟨(0 : ℚ), (1/20 : ℚ), 1/10, 1/2, none⟩ : TBLabel).bin| ≤ 1) := by
  refine C6_regression_vertical_bound [((0 : ℚ), (100 : ℚ)), (1, 105)]
    ⟨[⟨(0 : ℚ), some 1, 1/10, none, 1, 1⟩], false⟩
    ⟨(0 : ℚ), (1/20 : ℚ), 1/10, 1/2, none⟩ ?_
  norm_num [get_labels, List.filter, label_row, priceAt, priceBfill,
    List.find?, barrier_touched_bin, maxByAbs]

/-- C7: with a non-negative volatility target, increasing the profit
factor in the default (no side prediction) pipeline — which widens both
horizontal thresholds, since both use the profit factor — never produces
a strictly earlier resolved touch time; in particular this holds for
events that resolve via the profit-take barrier, as hypothesised. -/
theorem C7_pt_monotone (close vbs : Series) (s trgt f0 g0 : ℚ)
    (htrgt : 0 ≤ trgt) (hle : f0 ≤ g0)
    (hres : first_touch_t1 close f0 f0 vbs s trgt 1
        = (touch_barrier close f0 f0 s (lookupTB vbs s) trgt 1).2)
    (hsome : ((touch_barrier close f0 f0 s (lookupTB vbs s) trgt 1).2).isSome) :
    ∀ u u', first_touch_t1 close f0 f0 vbs s trgt 1 = some u →
      first_touch_t1 close g0 g0 vbs s trgt 1 = some u' → u ≤ u' := by
  intro u u' hu hu'
  have hf0 : 0 < f0 := by
    by_contra hc
    rw [touch_barrier_snd_eq, if_neg hc] at hsome
    simp at hsome
  have hg0 : 0 < g0 := lt_of_lt_of_le hf0 hle
  clear hres
  rw [first_touch_t1_unfold] at hu hu'
  simp only [resolveT1] at hu hu'
  rw [touch_barrier_snd_eq, touch_barrier_fst_eq, if_pos hf0, if_pos hf0] at hu
  rw [touch_barrier_snd_eq, touch_barrier_fst_eq, if_pos hg0, if_pos hg0] at hu'
  have hmem' := minTime_mem hu'
  simp only [List.mem_append, Option.mem_toList, Option.mem_def] at hmem'
  have hule : ∀ x, x ∈ (lookupTB vbs s).toList
        ++ (minTime (((tb_slice close s ((lookupTB vbs s).getD (lastTime close))).filter
              fun x => decide (f0 * trgt < (x.2 / priceAt close s - 1) * 1)).map Prod.fst)).toList
        ++ (minTime (((tb_slice close s ((lookupTB vbs s).getD (lastTime close))).filter
              fun x => decide ((x.2 / priceAt close s - 1) * 1 < -f0 * trgt)).map Prod.fst)).toList
      → u ≤ x := minTime_le hu
  rcases hmem' with (ht1 | hpt') | hsl'
  · refine hule u' ?_
    simp only [List.mem_append, Option.mem_toList, Option.mem_def]
    exact Or.inl (Or.inl ht1)
  · have hptval : minTime (((tb_slice close s ((lookupTB vbs s).getD (lastTime close))).filter
        fun x => decide (g0 * trgt < (x.2 / priceAt close s - 1) * 1)).map Prod.fst) = some u' :=
      hpt'
    have hsub : ∀ y ∈ ((tb_slice close s ((lookupTB vbs s).getD (lastTime close))).filter
          fun x => decide (g0 * trgt < (x.2 / priceAt close s - 1) * 1)).map Prod.fst,
        y ∈ ((tb_slice close s ((lookupTB vbs s).getD (lastTime close))).filter
          fun x => decide (f0 * trgt < (x.2 / priceAt close s - 1) * 1)).map Prod.fst := by
      intro y hy
      obtain ⟨x, hx, hxy⟩ := List.mem_map.mp hy
      refine List.mem_map.mpr ⟨x, ?_, hxy⟩
      have hx2 := List.mem_filter.mp hx
      refine List.mem_filter.mpr ⟨hx2.1, ?_⟩
      have hcond := hx2.2
      simp only [decide_eq_true_eq] at hcond ⊢
      have : f0 * trgt ≤ g0 * trgt := mul_le_mul_of_nonneg_right hle htrgt
      linarith
    obtain ⟨w, hw, hwle⟩ := minTime_le_of_subset hsub hptval
    refine le_trans (hule w ?_) hwle
    simp only [List.mem_append, Option.mem_toList, Option.mem_def]
    exact Or.inl (Or.inr hw)
  · have hslval : minTime (((tb_slice close s ((lookupTB vbs s).getD (lastTime close))).filter
        fun x => decide ((x.2 / priceAt close s - 1) * 1 < -g0 * trgt)).map Prod.fst) = some u' :=
      hsl'
    have hsub : ∀ y ∈ ((tb_slice close s ((lookupTB vbs s).getD (lastTime close))).filter
          fun x => decide ((x.2 / priceAt close s - 1) * 1 < -g0 * trgt)).map Prod.fst,
        y ∈ ((tb_slice close s ((lookupTB vbs s).getD (lastTime close))).filter
          fun x => decide ((x.2 / priceAt close s - 1) * 1 < -f0 * trgt)).map Prod.fst := by
      intro y hy
      obtain ⟨x, hx, hxy⟩ := List.mem_map.mp hy
      refine List.mem_map.mpr ⟨x, ?_, hxy⟩
      have hx2 := List.mem_filter.mp hx
      refine List.mem_filter.mpr ⟨hx2.1, ?_⟩
      have hcond := hx2.2
      simp only [decide_eq_true_eq] at hcond ⊢
      have : -g0 * trgt ≤ -f0 * trgt :=
        mul_le_mul_of_nonneg_right (neg_le_neg hle) htrgt
      linarith
    obtain ⟨w, hw, hwle⟩ := minTime_le_of_subset hsub hslval
    refine le_trans (hule w ?_) hwle
    simp only [List.mem_append, Option.mem_toList, Option.mem_def]
    exact Or.inr hw

/-- C7 witness: on `[(0,100), (1,120)]` the event resolves via profit-take
at time 1 under factor 1; under the wider factor 2 it resolves at the
vertical barrier, also time 1, so the touch time does not decrease. -/
theorem C7_pt_monotone_witness :
    (0 : ℚ) ≤ 1/10 ∧ (1 : ℚ) ≤ 2
    ∧ first_touch_t1 [((0 : ℚ), (100 : ℚ)), (1, 120)] 1 1 [((0 : ℚ), (1 : ℚ))] 0 (1/10) 1
        = (touch_barrier [((0 : ℚ), (100 : ℚ)), (1, 120)] 1 1 0
            (lookupTB [((0 : ℚ), (1 : ℚ))] 0) (1/10) 1).2
    ∧ ((touch_barrier [((0 : ℚ), (100 : ℚ)), (1, 120)] 1 1 0
            (lookupTB [((0 : ℚ), (1 : ℚ))] 0) (1/10) 1).2).isSome = true
    ∧ (1 : ℚ) ≤ 1 := by
  have h3 : first_touch_t1 [((0 : ℚ), (100 : ℚ)), (1, 120)] 1 1 [((0 : ℚ), (1 : ℚ))] 0 (1/10) 1
      = (touch_barrier [((0 : ℚ), (100 : ℚ)), (1, 120)] 1 1 0
          (lookupTB [((0 : ℚ), (1 : ℚ))] 0) (1/10) 1).2 := by
    norm_num [first_touch_t1, touch_barrier, resolveT1, minTime, lookupTB,
      List.find?, tb_slice, List.filter, priceAt, lastTime]
  have h4 : ((touch_barrier [((0 : ℚ), (100 : ℚ)), (1, 120)] 1 1 0
      (lookupTB [((0 : ℚ), (1 : ℚ))] 0) (1/10) 1).2).isSome = true := by
    norm_num [touch_barrier, minTime, lookupTB, List.find?, tb_slice,
      List.filter, priceAt, lastTime]
  have hft : first_touch_t1 [((0 : ℚ), (100 : ℚ)), (1, 120)] 1 1 [((0 : ℚ), (1 : ℚ))] 0 (1/10) 1
      = some 1 := by
    norm_num [first_touch_t1, touch_barrier, resolveT1, minTime, lookupTB,
      List.find?, tb_slice, List.filter, priceAt, lastTime]
  have hft2 : first_touch_t1 [((0 : ℚ), (100 : ℚ)), (1, 120)] 2 2 [((0 : ℚ), (1 : ℚ))] 0 (1/10) 1
      = some 1 := by
    norm_num [first_touch_t1, touch_barrier, resolveT1, minTime, lookupTB,
      List.find?, tb_slice, List.filter, priceAt, lastTime]
  refine ⟨by norm_num, by norm_num, h3, h4, ?_⟩
  exact C7_pt_monotone [((0 : ℚ), (100 : ℚ)), (1, 120)] [((0 : ℚ), (1 : ℚ))] 0 (1/10) 1 2
    (by norm_num) (by norm_num) h3 h4 1 1 hft hft2

/-- C4: for a strictly sorted timestamp index and non-negative horizon,
the vertical-barrier builder (i) has as domain a contiguous prefix of the
index, (ii) maps each retained timestamp `t` to the first index timestamp
`≥ t + horizon`, and (iii) retains `t` exactly when some index timestamp
is `≥ t + horizon` (so `t` is dropped exactly when `t + horizon` exceeds
the last timestamp). -/
theorem C4_vertical_barrier (times : List ℚ) (hq : ℚ)
    (hs : times.Pairwise (· < ·)) (hh : 0 ≤ hq) :
    ((add_vertical_barrier times hq).map Prod.fst
        = times.take (add_vertical_barrier times hq).length)
    ∧ (∀ p ∈ add_vertical_barrier times hq,
        p.2 ∈ times ∧ p.1 + hq ≤ p.2 ∧ ∀ u ∈ times, p.1 + hq ≤ u → p.2 ≤ u)
    ∧ (∀ t ∈ times,
        t ∈ (add_vertical_barrier times hq).map Prod.fst
          ↔ ∃ u ∈ times, t + hq ≤ u) := by
  refine ⟨avb_fst_eq times hq hs, ?_, fun t ht => avb_domain_iff times hq hs ht⟩
  intro p hp
  obtain ⟨j, hj, hjp⟩ := List.mem_iff_getElem.mp hp
  obtain ⟨hjt, hlt, heq⟩ := avb_getElem times hq hs hj
  rw [heq] at hjp
  refine ⟨?_, ?_, ?_⟩
  · rw [← hjp]
    exact List.getElem_mem hlt
  · rw [← hjp]
    exact le_getElem_of_searchsorted_le hs hlt (le_refl _)
  · intro u hu hle
    rw [← hjp] at hle ⊢
    simp only at hle ⊢
    obtain ⟨i, hi, hiu⟩ := List.mem_iff_getElem.mp hu
    by_cases hiss : i < searchsorted times (times[j] + hq)
    · exfalso
      have hlt2 := getElem_lt_of_lt_searchsorted hs hi hiss
      rw [hiu] at hlt2
      linarith
    · push_neg at hiss
      have hle2 := sorted_getElem_le hs hlt hi hiss
      rw [hiu] at hle2
      exact hle2

/-- C4 witness: on the index `[0, 1, 2]` with horizon 1 the builder's
conclusions hold; in particular the domain is the prefix `[0, 1]`. -/
theorem C4_vertical_barrier_witness :
    ((add_vertical_barrier [(0 : ℚ), 1, 2] 1).map Prod.fst
        = [(0 : ℚ), 1, 2].take (add_vertical_barrier [(0 : ℚ), 1, 2] 1).length)
    ∧ (∀ p ∈ add_vertical_barrier [(0 : ℚ), 1, 2] 1,
        p.2 ∈ [(0 : ℚ), 1, 2] ∧ p.1 + 1 ≤ p.2
          ∧ ∀ u ∈ [(0 : ℚ), 1, 2], p.1 + 1 ≤ u → p.2 ≤ u)
    ∧ (∀ t ∈ [(0 : ℚ), 1, 2],
        t ∈ (add_vertical_barrier [(0 : ℚ), 1, 2] 1).map Prod.fst
          ↔ ∃ u ∈ [(0 : ℚ), 1, 2], t + 1 ≤ u) :=
  C4_vertical_barrier [(0 : ℚ), 1, 2] 1 (by norm_num) (by norm_num)

theorem gdv_unfold (prices : Series) :
    get_daily_vol_returns prices
      = List.zipWith (fun t i =>
            (t, priceAt prices t
              / priceAt prices ((prices.map Prod.fst).getD (i - 1) 0) - 1))
          ((prices.map Prod.fst).drop ((prices.map Prod.fst).length
            - (((prices.map Prod.fst).map fun t =>
                  searchsorted (prices.map Prod.fst) (t - 1)).filter
                fun i => decide (0 < i)).length))
          (((prices.map Prod.fst).map fun t =>
              searchsorted (prices.map Prod.fst) (t - 1)).filter
            fun i => decide (0 < i)) := rfl

theorem gdv_pos_pairwise (prices : Series)
    (hs : (prices.map Prod.fst).Pairwise (· < ·)) :
    ((prices.map Prod.fst).map fun t =>
        searchsorted (prices.map Prod.fst) (t - 1)).Pairwise (· ≤ ·) := by
  rw [List.pairwise_map]
  refine hs.imp ?_
  intro a b hab
  refine List.countP_mono_left ?_
  intro u _ hp
  simp only [decide_eq_true_eq] at hp ⊢
  linarith

theorem gdv_length (prices : Series) :
    (get_daily_vol_returns prices).length
      = (((prices.map Prod.fst).map fun t =>
            searchsorted (prices.map Prod.fst) (t - 1)).filter
          fun i => decide (0 < i)).length := by
  have hkle : (((prices.map Prod.fst).map fun t =>
      searchsorted (prices.map Prod.fst) (t - 1)).filter
      fun i => decide (0 < i)).length ≤ (prices.map Prod.fst).length := by
    calc (((prices.map Prod.fst).map fun t =>
        searchsorted (prices.map Prod.fst) (t - 1)).filter
        fun i => decide (0 < i)).length
        ≤ ((prices.map Prod.fst).map fun t =>
            searchsorted (prices.map Prod.fst) (t - 1)).length :=
          List.length_filter_le _ _
      _ = (prices.map Prod.fst).length := by simp
  rw [gdv_unfold]
  simp only [List.length_zipWith, List.length_drop]
  omega

theorem gdv_elem_spec (prices : Series)
    (hs : (prices.map Prod.fst).Pairwise (· < ·))
    {p : ℚ × ℚ} (hp : p ∈ get_daily_vol_returns prices) :
    p.1 ∈ prices.map Prod.fst
    ∧ ∃ a ∈ prices.map Prod.fst, a < p.1 - 1
        ∧ (∀ u ∈ prices.map Prod.fst, u < p.1 - 1 → u ≤ a)
        ∧ p.2 = priceAt prices p.1 / priceAt prices a - 1 := by
  have hlen := gdv_length prices
  set times := prices.map Prod.fst with htimes
  set pos := times.map fun t => searchsorted times (t - 1) with hposd
  set kept := pos.filter fun i => decide (0 < i) with hkeptd
  have hmono : pos.Pairwise (· ≤ ·) := gdv_pos_pairwise prices hs
  have hposlen : pos.length = times.length := by rw [hposd]; simp
  have hkle : kept.length ≤ pos.length := by
    rw [hkeptd]
    exact List.length_filter_le _ _
  have hdr : kept = pos.drop (pos.length - kept.length) :=
    filter_pos_eq_drop pos hmono
  obtain ⟨j, hj, hjp⟩ := List.mem_iff_getElem.mp hp
  have hjlen : j < kept.length := by rw [← hlen]; exact hj
  have hjdrop : j < (times.drop (times.length - kept.length)).length := by
    simp only [List.length_drop]
    omega
  have hidx : times.length - kept.length + j < times.length := by omega
  have hgz : (get_daily_vol_returns prices)[j]
      = ((times.drop (times.length - kept.length))[j],
          priceAt prices ((times.drop (times.length - kept.length))[j])
            / priceAt prices (times.getD ((kept[j]) - 1) 0) - 1) := by
    rw [List.getElem_of_eq (gdv_unfold prices) hj]
    rw [List.getElem_zipWith]
  have houtj : (times.drop (times.length - kept.length))[j]
      = times[times.length - kept.length + j] := List.getElem_drop _
  have hposidx : times.length - kept.length + j < pos.length := by omega
  have h1 : kept[j] = pos[times.length - kept.length + j] := by
    rw [List.getElem_of_eq hdr hjlen, List.getElem_drop]
    congr 1
    omega
  have hkeptj : kept[j]
      = searchsorted times (times[times.length - kept.length + j] - 1) := by
    rw [h1]
    simp [hposd]
  have hpos : 0 < kept[j] := by
    have hmem : kept[j] ∈ kept := List.getElem_mem hjlen
    have hmem2 : kept[j] ∈ List.filter (fun i => decide (0 < i)) pos := hmem
    have := (List.mem_filter.mp hmem2).2
    simpa using this
  rw [hkeptj] at hpos
  have hcle : searchsorted times (times[times.length - kept.length + j] - 1)
      ≤ times.length := searchsorted_le_length _ _
  have hc1 : searchsorted times (times[times.length - kept.length + j] - 1) - 1
      < times.length := by omega
  have hanchor : times.getD
        (searchsorted times (times[times.length - kept.length + j] - 1) - 1) 0
      = times[searchsorted times (times[times.length - kept.length + j] - 1) - 1] :=
    List.getD_eq_getElem _ _ hc1
  have hplow : p = (times[times.length - kept.length + j],
      priceAt prices (times[times.length - kept.length + j])
        / priceAt prices
            (times[searchsorted times (times[times.length - kept.length + j] - 1) - 1])
        - 1) := by
    rw [← hjp, hgz, houtj, hkeptj, hanchor]
  have ht0mem : times[times.length - kept.length + j] ∈ times :=
    List.getElem_mem hidx
  have hamem :
      times[searchsorted times (times[times.length - kept.length + j] - 1) - 1]
        ∈ times := List.getElem_mem hc1
  have haless :
      times[searchsorted times (times[times.length - kept.length + j] - 1) - 1]
        < times[times.length - kept.length + j] - 1 :=
    getElem_lt_of_lt_searchsorted hs hc1 (by omega)
  constructor
  · rw [hplow]
    exact ht0mem
  · refine ⟨times[searchsorted times
        (times[times.length - kept.length + j] - 1) - 1], hamem, ?_, ?_, ?_⟩
    · rw [hplow]
      exact haless
    · intro u hu hult
      rw [hplow] at hult
      simp only at hult
      obtain ⟨i, hi, hiu⟩ := List.mem_iff_getElem.mp hu
      by_cases hic : i < searchsorted times
          (times[times.length - kept.length + j] - 1)
      · have hile : i ≤ searchsorted times
            (times[times.length - kept.length + j] - 1) - 1 := by omega
        have := sorted_getElem_le hs hi hc1 hile
        rw [hiu] at this
        exact this
      · exfalso
        push_neg at hic
        have := le_getElem_of_searchsorted_le hs hi hic
        rw [hiu] at this
        linarith
    · rw [hplow]

theorem gdv_domain (prices : Series)
    (hs : (prices.map Prod.fst).Pairwise (· < ·)) {t : ℚ}
    (hno : ∀ u ∈ prices.map Prod.fst, ¬ u < t - 1) :
    t ∉ (get_daily_vol_returns prices).map Prod.fst := by
  intro hmem
  obtain ⟨p, hp, hpt⟩ := List.mem_map.mp hmem
  have hspec := gdv_elem_spec prices hs hp
  obtain ⟨a, hamem, haless, _, _⟩ := hspec.2
  rw [hpt] at haless
  exact hno a hamem haless

/-- C2 witness: a concrete two-point series where the single event's
vertical barrier is timestamp 1 and its resolved touch time is bounded by
it. -/
theorem C2_touch_le_vertical_witness :
    (⟨(0 : ℚ), some 1, 1/10, none, 1, 1⟩ : TBEvent)
      ∈ (get_events [((0 : ℚ), (100 : ℚ)), (1, 110)] 1 1 [((0 : ℚ), (1/10 : ℚ))]
          [((0 : ℚ), (1 : ℚ))] none).rows ∧ (1 : ℚ) ≤ 1 := by
  constructor
  · norm_num [get_events, first_touch_t1, touch_barrier, resolveT1, minTime,
      lookupTB, List.find?, tb_slice, List.filter, priceAt, lastTime, maxTime]
  · refine C2_touch_le_vertical [((0 : ℚ), (100 : ℚ)), (1, 110)] [((0 : ℚ), (1/10 : ℚ))]
      [((0 : ℚ), (1 : ℚ))] 1 1 none ⟨(0 : ℚ), some 1, 1/10, none, 1, 1⟩ ?_ 1 ?_ 1 ?_
    · norm_num [get_events, first_touch_t1, touch_barrier, resolveT1, minTime,
        lookupTB, List.find?, tb_slice, List.filter, priceAt, lastTime, maxTime]
    · norm_num [lookupTB, List.find?]
    · rfl

/-- C5 counterexample: on the daily series `[(0,100), (1,110), (2,121)]`
the volatility estimator's return stage outputs one row, for timestamp 2,
with return `121/100 - 1 = 21/100` — computed against the anchor 0, the
latest timestamp strictly less than `2 - 1` — while the spec's anchor
(latest timestamp `≤ 2 - 1`) is 1, which would give `121/110 - 1 = 1/10`;
and the spec would also give timestamp 1 an anchor (0 ≤ 0) although the
code produces no output for it. -/
theorem C5_counterexample :
    get_daily_vol_returns [((0 : ℚ), (100 : ℚ)), (1, 110), (2, 121)]
      = [(2, 21/100)]
    ∧ spec_anchor [(0 : ℚ), 1, 2] 2 = some 1
    ∧ priceAt [((0 : ℚ), (100 : ℚ)), (1, 110), (2, 121)] 2
        / priceAt [((0 : ℚ), (100 : ℚ)), (1, 110), (2, 121)] 1 - 1 = 1/10
    ∧ ((21 : ℚ)/100) ≠ 1/10
    ∧ spec_anchor [(0 : ℚ), 1, 2] 1 = some 0
    ∧ (1 : ℚ) ∉ (get_daily_vol_returns
        [((0 : ℚ), (100 : ℚ)), (1, 110), (2, 121)]).map Prod.fst := by
  refine ⟨?_, ?_, ?_, by norm_num, ?_, ?_⟩
  · norm_num [get_daily_vol_returns, searchsorted, List.countP, List.countP.go,
      List.filter, priceAt, List.find?]
  · norm_num [spec_anchor, maxTime, List.filter]
  · norm_num [priceAt, List.find?]
  · norm_num [spec_anchor, maxTime, List.filter]
  · norm_num [get_daily_vol_returns, searchsorted, List.countP, List.countP.go,
      List.filter, priceAt, List.find?]

/-- C5 amended: for every output row of the volatility estimator's return
stage, the anchor is the latest timestamp STRICTLY LESS than `t` minus one
calendar day, the return is `price(t) / price(anchor) - 1`, and a
timestamp with no strictly earlier such anchor produces no output. -/
theorem C5_daily_returns (prices : Series)
    (hs : (prices.map Prod.fst).Pairwise (· < ·)) :
    (∀ p ∈ get_daily_vol_returns prices,
        p.1 ∈ prices.map Prod.fst
        ∧ ∃ a ∈ prices.map Prod.fst, a < p.1 - 1
            ∧ (∀ u ∈ prices.map Prod.fst, u < p.1 - 1 → u ≤ a)
            ∧ p.2 = priceAt prices p.1 / priceAt prices a - 1)
    ∧ ∀ t ∈ prices.map Prod.fst,
        (∀ u ∈ prices.map Prod.fst, ¬ u < t - 1) →
          t ∉ (get_daily_vol_returns prices).map Prod.fst :=
  ⟨fun _ hp => gdv_elem_spec prices hs hp,
    fun _ _ hno => gdv_domain prices hs hno⟩

/-- C5 witness: the amended characterisation instantiated on the concrete
three-day series. -/
theorem C5_daily_returns_witness :
    (∀ p ∈ get_daily_vol_returns [((0 : ℚ), (100 : ℚ)), (1, 110), (2, 121)],
        p.1 ∈ [((0 : ℚ), (100 : ℚ)), (1, 110), (2, 121)].map Prod.fst
        ∧ ∃ a ∈ [((0 : ℚ), (100 : ℚ)), (1, 110), (2, 121)].map Prod.fst,
            a < p.1 - 1
            ∧ (∀ u ∈ [((0 : ℚ), (100 : ℚ)), (1, 110), (2, 121)].map Prod.fst,
                u < p.1 - 1 → u ≤ a)
            ∧ p.2 = priceAt [((0 : ℚ), (100 : ℚ)), (1, 110), (2, 121)] p.1
                / priceAt [((0 : ℚ), (100 : ℚ)), (1, 110), (2, 121)] a - 1)
    ∧ ∀ t ∈ [((0 : ℚ), (100 : ℚ)), (1, 110), (2, 121)].map Prod.fst,
        (∀ u ∈ [((0 : ℚ), (100 : ℚ)), (1, 110), (2, 121)].map Prod.fst,
            ¬ u < t - 1) →
          t ∉ (get_daily_vol_returns
            [((0 : ℚ), (100 : ℚ)), (1, 110), (2, 121)]).map Prod.fst :=
  C5_daily_returns [((0 : ℚ), (100 : ℚ)), (1, 110), (2, 121)]
    (by norm_num [List.pairwise_cons])

/-- C8: with a strictly sorted non-empty price series, a positive barrier
horizon, a non-negative profit factor and non-negative volatility targets,
and a non-zero last price, the last timestamp of the series gets no
vertical barrier from the builder and is absent from the final output
label table. -/
theorem C8_last_event_dropped (close target : Series) (hq f0 f1 : ℚ)
    (m : LabelMode)
    (hs : (close.map Prod.fst).Pairwise (· < ·)) (hne : close ≠ [])
    (hh : 0 < hq) (hf0 : 0 ≤ f0)
    (htrgt : ∀ p ∈ target, 0 ≤ p.2)
    (hp : priceAt close (lastTime close) ≠ 0) :
    lastTime close ∉ (add_vertical_barrier (close.map Prod.fst) hq).map Prod.fst
    ∧ lastTime close
        ∉ (triple_barrier_pipeline close target hq f0 f1 m).rows.map
            TBLabel.start := by
  have hmne : close.map Prod.fst ≠ [] := fun hmm => hne (List.map_eq_nil_iff.mp hmm)
  have hlmem : lastTime close ∈ close.map Prod.fst := getLastD_mem _ _ hmne
  have ha : lastTime close
      ∉ (add_vertical_barrier (close.map Prod.fst) hq).map Prod.fst := by
    intro hmem
    obtain ⟨u, hu, hule⟩ :=
      (avb_domain_iff (close.map Prod.fst) hq hs hlmem).mp hmem
    have hub : u ≤ lastTime close := le_getLastD hs hu 0
    linarith
  refine ⟨ha, ?_⟩
  intro hmem
  obtain ⟨lbl, hlbl, hlblstart⟩ := List.mem_map.mp hmem
  have hlbl2 : lbl ∈ (get_labels m
      (get_events close f0 f1 target
        (add_vertical_barrier (close.map Prod.fst) hq) none) close).rows := hlbl
  obtain ⟨e, he, hsome, heq⟩ := get_labels_rows_mem hlbl2
  have hestart : e.start = lastTime close := by
    rw [heq] at hlblstart
    simpa [label_row] using hlblstart
  obtain ⟨st, hst, heqe⟩ := get_events_none_rows_mem he
  have hst1 : st.1 = lastTime close := by
    rw [heqe] at hestart
    simpa using hestart
  have htrgt2 : 0 ≤ st.2 := htrgt st hst
  have hlook : lookupTB (add_vertical_barrier (close.map Prod.fst) hq)
      (lastTime close) = none := lookupTB_eq_none ha
  have hslice : ∀ x ∈ tb_slice close (lastTime close)
      ((none : Option ℚ).getD (lastTime close)),
      (x.2 / priceAt close (lastTime close) - 1) * 1 = 0 := by
    intro x hx
    obtain ⟨hxc, hx1, hx2⟩ := mem_tb_slice hx
    have hx2' : x.1 ≤ lastTime close := by simpa using hx2
    have hxeq : x.1 = lastTime close := le_antisymm hx2' hx1
    have hpx : priceAt close (lastTime close) = x.2 := by
      rw [← hxeq]
      exact priceAt_eq hs hxc
    have hx2ne : x.2 ≠ 0 := hpx ▸ hp
    rw [hpx, div_self hx2ne]
    ring
  have hptnone : (touch_barrier close f0 f0 (lastTime close) none st.2 1).2
      = none := by
    rw [touch_barrier_snd_eq]
    by_cases hf : 0 < f0
    · rw [if_pos hf]
      have hfe : (tb_slice close (lastTime close)
          ((none : Option ℚ).getD (lastTime close))).filter
          (fun x => decide (f0 * st.2
            < (x.2 / priceAt close (lastTime close) - 1) * 1)) = [] := by
        rw [List.filter_eq_nil_iff]
        intro x hx
        simp only [decide_eq_true_eq]
        rw [hslice x hx]
        exact not_lt.mpr (mul_nonneg hf0 htrgt2)
      rw [hfe]
      rfl
    · rw [if_neg hf]
  have hslnone : (touch_barrier close f0 f0 (lastTime close) none st.2 1).1
      = none := by
    rw [touch_barrier_fst_eq]
    by_cases hf : 0 < f0
    · rw [if_pos hf]
      have hfe : (tb_slice close (lastTime close)
          ((none : Option ℚ).getD (lastTime close))).filter
          (fun x => decide ((x.2 / priceAt close (lastTime close) - 1) * 1
            < -f0 * st.2)) = [] := by
        rw [List.filter_eq_nil_iff]
        intro x hx
        simp only [decide_eq_true_eq]
        rw [hslice x hx]
        intro hcon
        nlinarith [mul_nonneg hf0 htrgt2]
      rw [hfe]
      rfl
    · rw [if_neg hf]
  have ht1none : first_touch_t1 close f0 f0
      (add_vertical_barrier (close.map Prod.fst) hq) st.1 st.2 1 = none := by
    rw [hst1, first_touch_t1_unfold, hlook, hptnone, hslnone]
    rfl
  have het1 : e.t1 = none := by
    rw [heqe]
    simpa using ht1none
  rw [het1] at hsome
  simp at hsome

/-- C8 witness: on the three-day series `[(0,100), (1,101), (2,99)]` with
horizon 1, the last timestamp 2 has a defined target yet gets no vertical
barrier and no output label row. -/
theorem C8_last_event_dropped_witness :
    lastTime [((0 : ℚ), (100 : ℚ)), (1, 101), (2, 99)]
      ∉ (add_vertical_barrier
          ([((0 : ℚ), (100 : ℚ)), (1, 101), (2, 99)].map Prod.fst) 1).map Prod.fst
    ∧ lastTime [((0 : ℚ), (100 : ℚ)), (1, 101), (2, 99)]
      ∉ (triple_barrier_pipeline [((0 : ℚ), (100 : ℚ)), (1, 101), (2, 99)]
          [((0 : ℚ), (1/10 : ℚ)), (2, 1/10)] 1 2 2
          LabelMode.classification).rows.map TBLabel.start :=
  C8_last_event_dropped [((0 : ℚ), (100 : ℚ)), (1, 101), (2, 99)]
    [((0 : ℚ), (1/10 : ℚ)), (2, 1/10)] 1 2 2 LabelMode.classification
    (by norm_num [List.pairwise_cons]) (by exact List.cons_ne_nil _ _)
    (by norm_num) (by norm_num) (by norm_num [List.forall_mem_cons])
    (by norm_num [priceAt, lastTime, List.find?, List.getLastD])

/-- C10: through the constructor pipeline no side prediction is supplied:
the events table has no `side` column, every event's first-touch time is
computed with side `+1` and the effective factor pair
`[profitFactor, profitFactor]`, the recorded `pt`/`sl` metadata used for
the label barriers is `[profitFactor, stopFactor]`, and the output label
table has no `side` column and no side values. -/
theorem C10_no_side_default (close target : Series) (hq f0 f1 : ℚ)
    (m : LabelMode) (e : TBEvent)
    (he : e ∈ (get_events close f0 f1 target
        (add_vertical_barrier (close.map Prod.fst) hq) none).rows) :
    (get_events close f0 f1 target
        (add_vertical_barrier (close.map Prod.fst) hq) none).hasSide = false
    ∧ e.sideCol = none ∧ e.pt = f0 ∧ e.sl = f1
    ∧ e.t1 = resolveT1
        (lookupTB (add_vertical_barrier (close.map Prod.fst) hq) e.start)
        (touch_barrier close f0 f0 e.start
          (lookupTB (add_vertical_barrier (close.map Prod.fst) hq) e.start)
          e.trgt 1).2
        (touch_barrier close f0 f0 e.start
          (lookupTB (add_vertical_barrier (close.map Prod.fst) hq) e.start)
          e.trgt 1).1
    ∧ (triple_barrier_pipeline close target hq f0 f1 m).hasSide = false
    ∧ ∀ lbl ∈ (triple_barrier_pipeline close target hq f0 f1 m).rows,
        lbl.sideVal = none := by
  obtain ⟨st, hst, heq⟩ := get_events_none_rows_mem he
  refine ⟨rfl, by rw [heq], by rw [heq], by rw [heq], ?_, rfl, ?_⟩
  · rw [heq]
    rfl
  · intro lbl hlbl
    have hlbl2 : lbl ∈ (get_labels m
        (get_events close f0 f1 target
          (add_vertical_barrier (close.map Prod.fst) hq) none) close).rows := hlbl
    obtain ⟨e2, _, _, heq2⟩ := get_labels_rows_mem hlbl2
    rw [heq2]
    rfl

/-- C10 witness: the conclusions instantiated at a concrete two-point
series and its single event. -/
theorem C10_no_side_default_witness :
    (get_events [((0 : ℚ), (100 : ℚ)), (1, 110)] 1 2 [((0 : ℚ), (1/10 : ℚ))]
        (add_vertical_barrier ([((0 : ℚ), (100 : ℚ)), (1, 110)].map Prod.fst) 1)
        none).hasSide = false
    ∧ (⟨(0 : ℚ), some 1, 1/10, none, 1, 2⟩ : TBEvent).sideCol = none
    ∧ (⟨(0 : ℚ), some 1, 1/10, none, 1, 2⟩ : TBEvent).pt = 1
    ∧ (⟨(0 : ℚ), some 1, 1/10, none, 1, 2⟩ : TBEvent).sl = 2
    ∧ (⟨(0 : ℚ), some 1, 1/10, none, 1, 2⟩ : TBEvent).t1 = resolveT1
        (lookupTB (add_vertical_barrier
          ([((0 : ℚ), (100 : ℚ)), (1, 110)].map Prod.fst) 1)
          (⟨(0 : ℚ), some 1, 1/10, none, 1, 2⟩ : TBEvent).start)
        (touch_barrier [((0 : ℚ), (100 : ℚ)), (1, 110)] 1 1
          (⟨(0 : ℚ), some 1, 1/10, none, 1, 2⟩ : TBEvent).start
          (lookupTB (add_vertical_barrier
            ([((0 : ℚ), (100 : ℚ)), (1, 110)].map Prod.fst) 1)
            (⟨(0 : ℚ), some 1, 1/10, none, 1, 2⟩ : TBEvent).start)
          (⟨(0 : ℚ), some 1, 1/10, none, 1, 2⟩ : TBEvent).trgt 1).2
        (touch_barrier [((0 : ℚ), (100 : ℚ)), (1, 110)] 1 1
          (⟨(0 : ℚ), some 1, 1/10, none, 1, 2⟩ : TBEvent).start
          (lookupTB (add_vertical_barrier
            ([((0 : ℚ), (100 : ℚ)), (1, 110)].map Prod.fst) 1)
            (⟨(0 : ℚ), some 1, 1/10, none, 1, 2⟩ : TBEvent).start)
          (⟨(0 : ℚ), some 1, 1/10, none, 1, 2⟩ : TBEvent).trgt 1).1
    ∧ (triple_barrier_pipeline [((0 : ℚ), (100 : ℚ)), (1, 110)]
        [((0 : ℚ), (1/10 : ℚ))] 1 1 2 LabelMode.classification).hasSide = false
    ∧ ∀ lbl ∈ (triple_barrier_pipeline [((0 : ℚ), (100 : ℚ)), (1, 110)]
        [((0 : ℚ), (1/10 : ℚ))] 1 1 2 LabelMode.classification).rows,
        lbl.sideVal = none :=
  C10_no_side_default [((0 : ℚ), (100 : ℚ)), (1, 110)] [((0 : ℚ), (1/10 : ℚ))]
    1 1 2 LabelMode.classification ⟨(0 : ℚ), some 1, 1/10, none, 1, 2⟩
    (by norm_num [get_events, add_vertical_barrier, searchsorted, List.countP,
      List.countP.go, first_touch_t1, touch_barrier, resolveT1, minTime,
      lookupTB, List.find?, tb_slice, List.filter, priceAt, lastTime])

end TripleBarrier
